import Mathlib

/-!
Shallow embedding of the dataset-splitting and paired-sampling logic of the
fastestimator repository:
  * `fastestimator/dataset/fe_dataset.py` (`FEDataset.split`)
  * `fastestimator/dataset/siamese_dir_dataset.py` (`SiameseDirDataset`)

Conventions of the embedding:
  * Python values stored in record dictionaries (data values and labels) are
    modelled by the type `Val := ℤ`; by default `LabeledDirDataset` maps class
    folders to integer labels, and `__getitem__` writes the integer labels 0/1.
  * A Python `dict` is insertion-ordered, so it is modelled by an association
    list; the no-duplicate-key property is carried as a hypothesis where needed.
  * Python `float` arguments of `split` are modelled by `ℚ`, `int` arguments
    by `ℤ`.  `math.ceil` becomes `Int.ceil`.
  * Randomness (`random.sample`, `np.random.uniform`, `np.random.choice`) is
    modelled by explicit oracle inputs ("tapes"); theorems quantify over them.
  * Python exceptions (`assert` failures, `ValueError`, numpy sampling errors,
    `KeyError`) are modelled by `Except`-style error results raised at the
    same program points.
-/

set_option maxHeartbeats 1000000

namespace FastEstimator

/-- Values stored inside record dictionaries: integer labels / opaque data ids. -/
abbrev Val := ℤ

/-- A record, i.e. a Python dict from string keys to values, in insertion order. -/
abbrev Record := List (String × Val)

/-- `r[k]` for a record.  Python raises `KeyError` when the key is absent;
the claims only access present keys, so a default of `0` stands in. -/
def Record.get : Record → String → Val
  | [], _ => 0
  | (k', v) :: rest, k => if k' = k then v else Record.get rest k

/-- `r[k] = v` for a record: replace in place if the key exists (keeping its
position, as Python dicts do), otherwise append the new key at the end. -/
def Record.set : Record → String → Val → Record
  | [], k, v => [(k, v)]
  | (k', v') :: rest, k, v =>
      if k' = k then (k, v) :: rest else (k', v') :: Record.set rest k v

/-- The `self.data` dictionary: index → record, in insertion order. -/
abbrev DataMap := List (ℕ × Record)

/-- `self.data[i]`.  Python raises `KeyError` on a missing key; the claims only
look up present keys, so a default empty record stands in. -/
def lookupData : DataMap → ℕ → Record
  | [], _ => []
  | (i', r) :: rest, i => if i' = i then r else lookupData rest i

/-- Removing key `i` from a data dictionary (the removal part of `dict.pop`). -/
def removeKey (data : DataMap) (i : ℕ) : DataMap :=
  data.filter (fun p => ¬ p.1 = i)

/-- The keys of a data dictionary, in order. -/
def dataKeys (data : DataMap) : List ℕ := data.map (·.1)

/-- The keys are pairwise distinct (the basic `dict` invariant). -/
def wellKeyed (data : DataMap) : Prop := (dataKeys data).Nodup

/-- The key set of a data dictionary. -/
def keyFinset (data : DataMap) : Finset ℕ := (dataKeys data).toFinset

/-- Listing a Python set of indices (`list(s)`): the iteration order of a
Python set is unspecified; the embedding fixes ascending order, realised as a
filter of an enumeration so that it evaluates by structural reduction. -/
def finsetAsc (s : Finset ℕ) : List ℕ :=
  (List.range (s.sup id + 1)).filter (fun i => i ∈ s)

theorem mem_finsetAsc (s : Finset ℕ) (i : ℕ) : i ∈ finsetAsc s ↔ i ∈ s := by
  unfold finsetAsc
  rw [List.mem_filter]
  constructor
  · intro h
    simpa using h.2
  · intro h
    refine ⟨?_, by simpa using h⟩
    rw [List.mem_range]
    exact Nat.lt_succ_of_le (Finset.le_sup (f := id) h)

theorem nodup_finsetAsc (s : Finset ℕ) : (finsetAsc s).Nodup :=
  (List.nodup_range _).filter _

theorem toFinset_finsetAsc (s : Finset ℕ) : (finsetAsc s).toFinset = s := by
  ext i
  rw [List.mem_toFinset, mem_finsetAsc]

theorem length_finsetAsc (s : Finset ℕ) : (finsetAsc s).length = s.card := by
  have h1 : (finsetAsc s).toFinset.card = (finsetAsc s).length :=
    List.toFinset_card_of_nodup (nodup_finsetAsc s)
  rw [toFinset_finsetAsc] at h1
  exact h1.symm

theorem finsetAsc_empty : finsetAsc ∅ = [] := by
  have h := length_finsetAsc ∅
  simpa using List.length_eq_zero.mp (by simpa using h)

/-- `self.data.pop(old_idx)` iterated over a list of indices, in order:
returns the popped records (in pop order) and the remaining dictionary. -/
def popAll : DataMap → List ℕ → List Record × DataMap
  | data, [] => ([], data)
  | data, i :: rest =>
      let v := lookupData data i
      let (vs, dRest) := popAll (removeKey data i) rest
      (v :: vs, dRest)

/-! ## `FEDataset.split` (fe_dataset.py lines 29-69)

The split descriptor argument list: Python accepts `float` (fraction), `int`
(count) and rejects anything else with a `ValueError`; `invalid` stands for a
value of any other Python type. -/

inductive Descriptor where
  | frac (q : ℚ)
  | count (n : ℤ)
  | invalid
deriving DecidableEq

/-- The validation failures of `FEDataset.split` (Python `assert` failures and
the `ValueError` for a descriptor of the wrong type). -/
inductive SplitError where
  | noDescriptors
  | badMethod
  | badType
  | fracSumTooBig
  | countSumTooBig
deriving DecidableEq

/-- The descriptor-resolution loop of `FEDataset.split` (lines 37-47): walks the
descriptors in order accumulating `frac_sum`, `int_sum` and `n_samples`;
a float descriptor `q` contributes `⌈original_size * q⌉`; a descriptor of any
other type raises `ValueError` at that point. -/
def resolveLoop (size : ℕ) :
    List Descriptor → ℚ → ℤ → List ℤ → Except SplitError (ℚ × ℤ × List ℤ)
  | [], fracSum, intSum, nSamples => .ok (fracSum, intSum, nSamples)
  | .frac q :: rest, fracSum, intSum, nSamples =>
      let c : ℤ := ⌈(size : ℚ) * q⌉
      resolveLoop size rest (fracSum + q) (intSum + c) (nSamples ++ [c])
  | .count n :: rest, fracSum, intSum, nSamples =>
      resolveLoop size rest fracSum (intSum + n) (nSamples ++ [n])
  | .invalid :: _, _, _, _ => .error .badType

def resolveDescriptors (size : ℕ) (descs : List Descriptor) :
    Except SplitError (ℚ × ℤ × List ℤ) :=
  resolveLoop size descs 0 0 []

/-- The index pool selected by the chosen method (lines 52-61).  For
`"random"`, `random.sample(range(original_size), int_sum)` is modelled by the
oracle `pool` (theorems about the random method carry the guarantee
`random.sample` provides: distinct in-range indices of length `int_sum`).
`"from_front"` is `range(int_sum)` and `"from_back"` is
`range(original_size - 1, original_size - int_sum - 1, -1)`; a Python `range`
with a bound below zero is empty, hence `Int.toNat`. -/
def selectIndices (size : ℕ) (intSum : ℤ) (method : String) (pool : List ℕ) :
    List ℕ :=
  if method = "random" then pool
  else if method = "from_front" then List.range intSum.toNat
  else if method = "from_back" then
    (List.range intSum.toNat).map (fun j => size - 1 - j)
  else []

/-- One slice `(indices[i] for i in range(start, start + stop))` (line 64).
In the validated regime every access is in range, so `getD` with default `0`
stands in for Python list indexing. -/
def sliceOf (indices : List ℕ) (start stop : ℤ) : List ℕ :=
  (List.range stop.toNat).map
    (fun (j : ℕ) => indices.getD (start + (j : ℤ)).toNat 0)

/-- The slicing loop of lines 62-65: cut the index pool into contiguous
pieces sized by `n_samples`, in descriptor order. -/
def takeSlices (indices : List ℕ) : ℤ → List ℤ → List (List ℕ)
  | _, [] => []
  | start, stop :: rest => sliceOf indices start stop :: takeSlices indices (start + stop) rest

/-- `FEDataset.split` up to (but not including) the `_do_split` call: all the
validation of lines 30-50 in Python's order, then index selection and slicing.
`size` is the length the caller's dataset reports for splitting purposes. -/
def splitCore (size : ℕ) (descs : List Descriptor) (method : String)
    (pool : List ℕ) : Except SplitError (List (List ℕ)) :=
  if descs.isEmpty then .error .noDescriptors
  else if ¬ (method = "random" ∨ method = "from_front" ∨ method = "from_back") then
    .error .badMethod
  else
    match resolveDescriptors size descs with
    | .error e => .error e
    | .ok (fracSum, intSum, nSamples) =>
      if 1 ≤ fracSum then .error .fracSumTooBig
      else if (size : ℤ) ≤ intSum then .error .countSumTooBig
      else .ok (takeSlices (selectIndices size intSum method pool) 0 nSamples)

/-! ### Spec-level recomputations of the resolved quantities -/

/-- The count a single descriptor resolves to (`⌈size * q⌉` for a float, the
int itself for an int). -/
def resolvedCount (size : ℕ) : Descriptor → ℤ
  | .frac q => ⌈(size : ℚ) * q⌉
  | .count n => n
  | .invalid => 0

def nSamplesOf (size : ℕ) (descs : List Descriptor) : List ℤ :=
  descs.map (resolvedCount size)

def intSumOf (size : ℕ) (descs : List Descriptor) : ℤ :=
  (nSamplesOf size descs).sum

def fracSumOf (descs : List Descriptor) : ℚ :=
  (descs.map (fun d => match d with | .frac q => q | _ => 0)).sum

/-- A descriptor is valid in the sense of the spec's data model: a fraction in
`(0,1)` or a non-negative count. -/
def Descriptor.valid : Descriptor → Prop
  | .frac q => 0 < q ∧ q < 1
  | .count n => 0 ≤ n
  | .invalid => False

theorem resolveLoop_no_invalid (size : ℕ) (descs : List Descriptor)
    (h : Descriptor.invalid ∉ descs) (f : ℚ) (i : ℤ) (acc : List ℤ) :
    resolveLoop size descs f i acc =
      .ok (f + fracSumOf descs, i + intSumOf size descs, acc ++ nSamplesOf size descs) := by
  induction descs generalizing f i acc with
  | nil => simp [resolveLoop, fracSumOf, intSumOf, nSamplesOf]
  | cons d rest ih =>
    have hd : d ≠ Descriptor.invalid := by
      intro hEq; exact h (hEq ▸ List.mem_cons_self _ _)
    have hrest : Descriptor.invalid ∉ rest := fun hm => h (List.mem_cons_of_mem _ hm)
    cases d with
    | frac q =>
      simp only [resolveLoop, ih hrest]
      simp [fracSumOf, intSumOf, nSamplesOf, resolvedCount, add_assoc]
    | count n =>
      simp only [resolveLoop, ih hrest]
      simp [fracSumOf, intSumOf, nSamplesOf, resolvedCount, add_assoc]
    | invalid => exact absurd rfl hd

theorem resolveLoop_invalid_mem (size : ℕ) (descs : List Descriptor)
    (h : Descriptor.invalid ∈ descs) (f : ℚ) (i : ℤ) (acc : List ℤ) :
    resolveLoop size descs f i acc = .error .badType := by
  induction descs generalizing f i acc with
  | nil => cases h
  | cons d rest ih =>
    cases d with
    | frac q =>
      have : Descriptor.invalid ∈ rest := by
        rcases List.mem_cons.mp h with h1 | h1
        · cases h1
        · exact h1
      simp [resolveLoop, ih this]
    | count n =>
      have : Descriptor.invalid ∈ rest := by
        rcases List.mem_cons.mp h with h1 | h1
        · cases h1
        · exact h1
      simp [resolveLoop, ih this]
    | invalid => rfl

theorem resolveDescriptors_no_invalid (size : ℕ) (descs : List Descriptor)
    (h : Descriptor.invalid ∉ descs) :
    resolveDescriptors size descs =
      .ok (fracSumOf descs, intSumOf size descs, nSamplesOf size descs) := by
  simpa using resolveLoop_no_invalid size descs h 0 0 []

/-! ## `SiameseDirDataset._data_to_class` (siamese_dir_dataset.py lines 62-76)

`self.class_data` is a dict from label value to the set of data indices with
that label, built by one scan of `data.items()` with
`class_data.setdefault(elem[label_key], set()).add(idx)`. -/

/-- The `class_data` dictionary: label → set of indices, in insertion order. -/
abbrev ClassMap := List (Val × Finset ℕ)

/-- `self.class_data[c]`.  Python raises `KeyError` on a missing label; the
claims only look up present labels, so `∅` stands in. -/
def classLookup : ClassMap → Val → Finset ℕ
  | [], _ => ∅
  | (c', s) :: rest, c => if c' = c then s else classLookup rest c

/-- `self.class_data.keys()`, in insertion order. -/
def classKeys (cd : ClassMap) : List Val := cd.map (·.1)

/-- `class_data.setdefault(c, set()).add(idx)`: add `idx` to the set of label
`c`, creating the entry at the end of the dict if the label is new. -/
def setdefaultAdd : ClassMap → Val → ℕ → ClassMap
  | [], c, idx => [(c, {idx})]
  | (c', s) :: rest, c, idx =>
      if c' = c then (c, insert idx s) :: rest
      else (c', s) :: setdefaultAdd rest c idx

/-- `SiameseDirDataset._data_to_class`. -/
def dataToClass (data : DataMap) (labelKey : String) : ClassMap :=
  data.foldl (fun cd p => setdefaultAdd cd (p.2.get labelKey) p.1) []

/-- The set of indices of `data` whose record carries label `c` (the intended
meaning of one `class_data` entry). -/
def labelIdx (data : DataMap) (labelKey : String) (c : Val) : Finset ℕ :=
  ((data.filter (fun p => p.2.get labelKey = c)).map (·.1)).toFinset

theorem mem_labelIdx (data : DataMap) (k : String) (c : Val) (i : ℕ) :
    i ∈ labelIdx data k c ↔ ∃ r : Record, (i, r) ∈ data ∧ r.get k = c := by
  simp only [labelIdx, List.mem_toFinset, List.mem_map, List.mem_filter]
  constructor
  · rintro ⟨p, ⟨hp, hq⟩, hi⟩
    exact ⟨p.2, by simpa [← hi] using hp, by simpa using hq⟩
  · rintro ⟨r, hr, hc⟩
    exact ⟨(i, r), ⟨hr, by simpa using hc⟩, rfl⟩

theorem classLookup_setdefaultAdd (cd : ClassMap) (c0 : Val) (i : ℕ) (c : Val) :
    classLookup (setdefaultAdd cd c0 i) c =
      if c = c0 then insert i (classLookup cd c) else classLookup cd c := by
  induction cd with
  | nil =>
    by_cases h : c = c0
    · subst h; simp [setdefaultAdd, classLookup]
    · have h2 : ¬ c0 = c := fun hEq => h hEq.symm
      simp [setdefaultAdd, classLookup, h, h2]
  | cons p rest ih =>
    obtain ⟨c', s⟩ := p
    by_cases h1 : c' = c0
    · subst h1
      by_cases h2 : c' = c
      · subst h2; simp [setdefaultAdd, classLookup]
      · have h3 : ¬ c = c' := fun hEq => h2 hEq.symm
        simp [setdefaultAdd, classLookup, h2, h3]
    · by_cases h2 : c' = c
      · subst h2
        rw [if_neg h1]
        simp [setdefaultAdd, h1, classLookup]
      · simp [setdefaultAdd, if_neg h1, classLookup, h2, ih]

theorem classKeys_setdefaultAdd (cd : ClassMap) (c0 : Val) (i : ℕ) :
    classKeys (setdefaultAdd cd c0 i) =
      if c0 ∈ classKeys cd then classKeys cd else classKeys cd ++ [c0] := by
  induction cd with
  | nil => simp [setdefaultAdd, classKeys]
  | cons p rest ih =>
    obtain ⟨c', s⟩ := p
    by_cases h1 : c' = c0
    · subst h1; simp [setdefaultAdd, classKeys]
    · have h2 : ¬ c0 = c' := fun hEq => h1 hEq.symm
      have hhead : classKeys (setdefaultAdd ((c', s) :: rest) c0 i) =
          c' :: classKeys (setdefaultAdd rest c0 i) := by
        simp [setdefaultAdd, h1, classKeys]
      rw [hhead, ih]
      by_cases h3 : c0 ∈ classKeys rest
      · rw [if_pos h3,
          if_pos (show c0 ∈ classKeys ((c', s) :: rest) from List.mem_cons.mpr (Or.inr h3))]
        simp [classKeys]
      · rw [if_neg h3,
          if_neg (show c0 ∉ classKeys ((c', s) :: rest) from
            fun hmem => (List.mem_cons.mp hmem).elim (fun hEq => h2 hEq) h3)]
        simp [classKeys]

/-- The fold of `_data_to_class`, characterised entry-wise. -/
theorem classLookup_foldl (data : DataMap) (k : String) (cd : ClassMap) (c : Val) :
    classLookup
        (data.foldl (fun cd p => setdefaultAdd cd (p.2.get k) p.1) cd) c =
      classLookup cd c ∪ labelIdx data k c := by
  induction data generalizing cd with
  | nil => simp [labelIdx]
  | cons p rest ih =>
    obtain ⟨i, r⟩ := p
    simp only [List.foldl_cons, ih]
    rw [classLookup_setdefaultAdd]
    by_cases h : r.get k = c
    · have hlab : labelIdx ((i, r) :: rest) k c = insert i (labelIdx rest k c) := by
        simp [labelIdx, List.filter_cons, h]
      simp [h, hlab, Finset.insert_union]
    · have hlab : labelIdx ((i, r) :: rest) k c = labelIdx rest k c := by
        simp [labelIdx, List.filter_cons, h]
      have : ¬ c = r.get k := fun hc => h hc.symm
      simp [this, hlab]

/-- Each `class_data` entry of a freshly built class index holds exactly the
indices carrying that label. -/
theorem classLookup_dataToClass (data : DataMap) (k : String) (c : Val) :
    classLookup (dataToClass data k) c = labelIdx data k c := by
  have := classLookup_foldl data k [] c
  simpa [dataToClass, classLookup] using this

theorem mem_classKeys_foldl (data : DataMap) (k : String) (cd : ClassMap) (c : Val) :
    c ∈ classKeys
        (data.foldl (fun cd p => setdefaultAdd cd (p.2.get k) p.1) cd) ↔
      c ∈ classKeys cd ∨ c ∈ data.map (fun p => (p.2 : Record).get k) := by
  induction data generalizing cd with
  | nil => simp
  | cons p rest ih =>
    obtain ⟨i, r⟩ := p
    simp only [List.foldl_cons, ih, List.map_cons, List.mem_cons]
    rw [classKeys_setdefaultAdd]
    by_cases h : r.get k ∈ classKeys cd
    · rw [if_pos h]
      constructor
      · rintro (h1 | h1)
        · exact Or.inl h1
        · exact Or.inr (Or.inr h1)
      · rintro (h1 | h1 | h1)
        · exact Or.inl h1
        · exact Or.inl (h1 ▸ h)
        · exact Or.inr h1
    · rw [if_neg h]
      simp only [List.mem_append, List.mem_singleton]
      constructor
      · rintro ((h1 | h1) | h1)
        · exact Or.inl h1
        · exact Or.inr (Or.inl h1)
        · exact Or.inr (Or.inr h1)
      · rintro (h1 | h1 | h1)
        · exact Or.inl (Or.inl h1)
        · exact Or.inl (Or.inr h1)
        · exact Or.inr h1

theorem mem_classKeys_dataToClass (data : DataMap) (k : String) (c : Val) :
    c ∈ classKeys (dataToClass data k) ↔
      c ∈ data.map (fun p => (p.2 : Record).get k) := by
  have := mem_classKeys_foldl data k [] c
  simpa [dataToClass, classKeys] using this

theorem classKeys_nodup_foldl (data : DataMap) (k : String) (cd : ClassMap)
    (h : (classKeys cd).Nodup) :
    (classKeys
        (data.foldl (fun cd p => setdefaultAdd cd (p.2.get k) p.1) cd)).Nodup := by
  induction data generalizing cd with
  | nil => exact h
  | cons p rest ih =>
    simp only [List.foldl_cons]
    apply ih
    rw [classKeys_setdefaultAdd]
    by_cases hm : p.2.get k ∈ classKeys cd
    · rw [if_pos hm]; exact h
    · rw [if_neg hm]
      refine List.Nodup.append h (List.nodup_singleton _) ?_
      intro x hx hx'
      rw [List.mem_singleton] at hx'
      subst hx'
      exact hm hx

theorem classKeys_nodup_dataToClass (data : DataMap) (k : String) :
    (classKeys (dataToClass data k)).Nodup :=
  classKeys_nodup_foldl data k [] (by simp [classKeys])

/-- In a class dict with distinct labels, an entry's set is what `[]`-lookup
returns for its label. -/
theorem classLookup_of_mem (cd : ClassMap) (h : (classKeys cd).Nodup)
    {c : Val} {s : Finset ℕ} (hm : (c, s) ∈ cd) : classLookup cd c = s := by
  induction cd with
  | nil => cases hm
  | cons p rest ih =>
    obtain ⟨c', s'⟩ := p
    have hk : c' ∉ classKeys rest := by
      simp only [classKeys, List.map_cons, List.nodup_cons] at h
      exact h.1
    have h2 : (classKeys rest).Nodup := by
      simp only [classKeys, List.map_cons, List.nodup_cons] at h
      exact h.2
    rcases List.mem_cons.mp hm with he | hm'
    · rw [show classLookup ((c', s') :: rest) c = if c' = c then s' else classLookup rest c
        from rfl]
      have hc : c' = c := (Prod.ext_iff.mp he.symm).1
      rw [if_pos hc]
      exact (Prod.ext_iff.mp he.symm).2
    · have hne : ¬ c' = c := by
        intro hEq
        subst hEq
        exact hk (by simpa [classKeys] using List.mem_map_of_mem Prod.fst hm')
      rw [show classLookup ((c', s') :: rest) c = if c' = c then s' else classLookup rest c
        from rfl]
      rw [if_neg hne]
      exact ih h2 hm'

/-- Distinct keys mean each entry is present exactly once: two entries of
`data` with the same index hold the same record. -/
theorem wellKeyed_unique {data : DataMap} (h : wellKeyed data) {i : ℕ}
    {r r' : Record} (h1 : (i, r) ∈ data) (h2 : (i, r') ∈ data) : r = r' := by
  induction data with
  | nil => cases h1
  | cons p rest ih =>
    have hk : p.1 ∉ dataKeys rest := by
      simp only [wellKeyed, dataKeys, List.map_cons, List.nodup_cons] at h
      exact h.1
    have hr : wellKeyed rest := by
      simp only [wellKeyed, dataKeys, List.map_cons, List.nodup_cons] at h
      exact h.2
    rcases List.mem_cons.mp h1 with e1 | m1 <;> rcases List.mem_cons.mp h2 with e2 | m2
    · have h3 : ((i, r) : ℕ × Record) = (i, r') := e1.trans e2.symm
      exact (Prod.ext_iff.mp h3).2
    · exfalso
      apply hk
      have hmem : i ∈ dataKeys rest := List.mem_map_of_mem Prod.fst m2
      rw [← e1]
      exact hmem
    · exfalso
      apply hk
      have hmem : i ∈ dataKeys rest := List.mem_map_of_mem Prod.fst m1
      rw [← e2]
      exact hmem
    · exact ih hr m1 m2

/-! ## `SiameseDirDataset` state and `_do_split` (siamese_dir_dataset.py) -/

/-- The fields of a `SiameseDirDataset` that the splitting and sampling logic
touches (`self.data` comes from the `LabeledDirDataset` base; the remaining
fields are set in `__init__`). -/
structure SiameseData where
  data : DataMap
  labelKey : String
  dataKeyLeft : String
  dataKeyRight : String
  percentMatching : ℚ
  classData : ClassMap
deriving DecidableEq

/-- `__init__` (lines 47-60): the base class provides the records; the class
index is built by `_data_to_class(self.data, label_key)`. -/
def mkSiamese (data : DataMap) (dataKeyLeft dataKeyRight labelKey : String)
    (percentMatching : ℚ) : SiameseData :=
  { data := data
    labelKey := labelKey
    dataKeyLeft := dataKeyLeft
    dataKeyRight := dataKeyRight
    percentMatching := percentMatching
    classData := dataToClass data labelKey }

/-- `SiameseDirDataset._split_length` (lines 78-86): `len(self.class_data)`. -/
def SiameseData.splitLength (d : SiameseData) : ℕ := d.classData.length

/-- Python's `sorted` on the class labels (ascending insertion sort). -/
def insertSorted (x : Val) : List Val → List Val
  | [] => [x]
  | y :: ys => if x ≤ y then x :: y :: ys else y :: insertSorted x ys

/-- `list(sorted(self.class_data.keys()))` (line 102). -/
def sortedKeys (cd : ClassMap) : List Val := (classKeys cd).foldr insertSorted []

/-- Line 103: `[item for i in split for item in self.class_data[int_class_keys[i]]]`
— translate class ordinals into the concrete data indices of those classes.
Iterating a Python `set` yields its members in an unspecified order; the
embedding fixes ascending order (no claim depends on the order). -/
def classIdxToDataIdx (cd : ClassMap) (keys : List Val) (ordinals : List ℕ) :
    List ℕ :=
  (ordinals.map (fun i => finsetAsc (classLookup cd (keys.getD i 0)))).flatten

/-- The `for split in splits` loop of `_do_split` (lines 100-110): each round
pops the selected records out of `self.data` (which threads through the loop)
while `self.class_data` stays as it was before the call; the popped records are
re-keyed `0..k-1` in pop order.  Returns the remaining `self.data` and the new
datasets' data dicts. -/
def doSplitLoop (cd : ClassMap) (keys : List Val) :
    DataMap → List (List ℕ) → DataMap × List DataMap
  | data, [] => (data, [])
  | data, s :: rest =>
      let idxs := classIdxToDataIdx cd keys s
      let (vals, dataRest) := popAll data idxs
      let (dataFin, newOnes) := doSplitLoop cd keys dataRest rest
      (dataFin, vals.enum :: newOnes)

/-- `SiameseDirDataset._do_split` (lines 88-117): run the loop, then re-key the
surviving records to `0..len-1` (line 112) and rebuild the class index of the
source and of every new dataset (`_skip_init` passes the other fields along
unchanged).  The `summary.cache_clear()` call only drops a cache and is not
part of the state modelled here. -/
def SiameseData.doSplit (d : SiameseData) (splits : List (List ℕ)) :
    SiameseData × List SiameseData :=
  let keys := sortedKeys d.classData
  let (dataRem, newDatas) := doSplitLoop d.classData keys d.data splits
  let rekeyed := (dataRem.map (·.2)).enum
  ({ d with data := rekeyed, classData := dataToClass rekeyed d.labelKey },
   newDatas.map (fun nd => { d with data := nd, classData := dataToClass nd d.labelKey }))

/-- Modelled from the spec: the `split` entry point that `SiameseDirDataset`
actually inherits lives in `fastestimator/dataset/dataset.py`, which is not
under src/ — only the old `fe_dataset.py` version of the algorithm is.  Per the
spec, the length used for resolving fractions and counts is the dataset's
*effective split length* (`self._split_length()`, the number of distinct
classes here); the validation, index selection and slicing are exactly
`FEDataset.split` of `fe_dataset.py` (`splitCore`), and the index slices are
handed to `_do_split`.  The pair returned is (result, state of the source
after the call); a validation failure leaves the source untouched. -/
def SiameseData.split (d : SiameseData) (descs : List Descriptor)
    (method : String) (pool : List ℕ) :
    Except SplitError (List SiameseData) × SiameseData :=
  match splitCore d.splitLength descs method pool with
  | .error e => (.error e, d)
  | .ok slices =>
      let (src, results) := d.doSplit slices
      (.ok results, src)

/-! ## The plain (instance-level) dataset -/

/-- Modelled from the spec: a plain in-memory dataset (`InMemoryDataset` /
"plain dataset" of the spec) is not under src/ — `fe_dataset.py` leaves
`__len__` and `_do_split` abstract.  Per the spec, its effective split length
is the number of raw instances, and its partition routine removes the selected
record indices from the source and constructs new datasets holding exactly
those records under fresh contiguous keys `0..k-1`, re-keying the source the
same way. -/
structure PlainData where
  data : DataMap
deriving DecidableEq

/-- Modelled from the spec: the plain dataset's `_do_split` — pop each selected
index out of the source (the logical indices *are* the record indices), re-key
each split's records `0..k-1` in selection order, then re-key the survivors. -/
def plainDoSplitLoop : DataMap → List (List ℕ) → DataMap × List DataMap
  | data, [] => (data, [])
  | data, s :: rest =>
      let (vals, dataRest) := popAll data s
      let (dataFin, newOnes) := plainDoSplitLoop dataRest rest
      (dataFin, vals.enum :: newOnes)

def PlainData.doSplit (d : PlainData) (splits : List (List ℕ)) :
    PlainData × List PlainData :=
  let (dataRem, newDatas) := plainDoSplitLoop d.data splits
  (⟨(dataRem.map (·.2)).enum⟩, newDatas.map (fun nd => ⟨nd⟩))

/-- The plain dataset's effective split length: the number of raw instances. -/
def PlainData.splitLength (d : PlainData) : ℕ := d.data.length

/-- `FEDataset.split` on a plain dataset: `splitCore` resolved against the
instance count, the slices handed to the plain `_do_split`. -/
def PlainData.split (d : PlainData) (descs : List Descriptor)
    (method : String) (pool : List ℕ) :
    Except SplitError (List PlainData) × PlainData :=
  match splitCore d.splitLength descs method pool with
  | .error e => (.error e, d)
  | .ok slices =>
      let (src, results) := d.doSplit slices
      (.ok results, src)

/-! ## Sampling: `__getitem__` (lines 119-142) and `one_shot_trial` (144-167)

`np.random.*` calls are modelled by oracle inputs.  `np.random.choice` of an
empty list raises `ValueError` (the "sampling error" of the spec's taxonomy);
`np.random.choice(..., replace=False)` with a sample larger than the
population raises `ValueError` as well; the two `assert`s of `one_shot_trial`
fail for out-of-range `n`. -/

inductive SamplingError where
  | emptyDomain
  | sampleTooLarge
  | nTooSmall
  | nTooLarge
deriving DecidableEq

instance exceptDecEq {ε α : Type} [DecidableEq ε] [DecidableEq α] :
    DecidableEq (Except ε α)
  | .error e, .error f => decidable_of_iff (e = f) (by simp)
  | .ok a, .ok b => decidable_of_iff (a = b) (by simp)
  | .error _, .ok _ => isFalse (fun hEq => nomatch hEq)
  | .ok _, .error _ => isFalse (fun hEq => nomatch hEq)

/-- `np.random.choice(list(s))` for a set of indices: Python lists the set in
an unspecified order and draws a uniformly random position; the oracle `k`
selects the position (every member is selected by some `k`).  Empty domain
raises. -/
def chooseIdx (s : Finset ℕ) (k : ℕ) : Except SamplingError ℕ :=
  let l := finsetAsc s
  if l.isEmpty then .error .emptyDomain else .ok (l.getD (k % l.length) 0)

/-- `np.random.choice(l)` for a list of labels. -/
def chooseVal (l : List Val) (k : ℕ) : Except SamplingError Val :=
  if l.isEmpty then .error .emptyDomain else .ok (l.getD (k % l.length) 0)

/-- The random draws one `__getitem__` call makes: the uniform variate
`np.random.uniform(0, 1)` and the positions of the (at most two)
`np.random.choice` calls. -/
structure Tape where
  u : ℚ
  k1 : ℕ
  k2 : ℕ

/-- `SiameseDirDataset.__getitem__` (lines 119-142).  `deepcopy` means the
stored record is never aliased: the embedding's `Record.set` is persistent, so
`d.data` is untouched by item access.  With `u < percent_matching_data` the
partner is drawn from the same class minus the index itself and the label
becomes 1; otherwise a different class is drawn, then a member of it, and the
label becomes 0. -/
def SiameseData.getItem (d : SiameseData) (index : ℕ) (t : Tape) :
    Except SamplingError Record :=
  let baseItem := lookupData d.data index
  if t.u < d.percentMatching then
    let clazzItems := classLookup d.classData (baseItem.get d.labelKey)
    match chooseIdx (clazzItems.erase index) t.k1 with
    | .error e => .error e
    | .ok other =>
        .ok ((baseItem.set d.dataKeyRight
                ((lookupData d.data other).get d.dataKeyLeft)).set d.labelKey 1)
  else
    let otherClasses :=
      (classKeys d.classData).filter (fun c => ¬ c = baseItem.get d.labelKey)
    match chooseVal otherClasses t.k1 with
    | .error e => .error e
    | .ok otherClass =>
        match chooseIdx (classLookup d.classData otherClass) t.k2 with
        | .error e => .error e
        | .ok other =>
            .ok ((baseItem.set d.dataKeyRight
                    ((lookupData d.data other).get d.dataKeyLeft)).set d.labelKey 0)

/-- Sampling without replacement (`np.random.choice(l, size=k, replace=False)`)
as a seed-driven process: repeatedly draw a position, remove the drawn element.
Every `k`-combination is reachable by some seed list. -/
def pickSeq {α : Type} [DecidableEq α] (dflt : α) : List α → ℕ → List ℕ → List α
  | _, 0, _ => []
  | l, k + 1, seeds =>
      let x := l.getD (seeds.headD 0 % l.length) dflt
      x :: pickSeq dflt (l.erase x) k seeds.tail

def chooseNoReplace {α : Type} [DecidableEq α] (dflt : α) (l : List α) (k : ℕ)
    (seeds : List ℕ) : Except SamplingError (List α) :=
  if l.length < k then .error .sampleTooLarge else .ok (pickSeq dflt l k seeds)

/-- The random draws of one `one_shot_trial` call. -/
structure TrialTape where
  classSeeds : List ℕ
  baseSeeds : List ℕ
  itemSeeds : List ℕ

/-- The `for clazz in classes[1:]` loop of `one_shot_trial` (lines 164-166):
draw one member of each remaining class and take its left-key value. -/
def gatherOthers (d : SiameseData) :
    List Val → List ℕ → Except SamplingError (List Val)
  | [], _ => .ok []
  | c :: cs, seeds =>
      match chooseIdx (classLookup d.classData c) (seeds.headD 0) with
      | .error e => .error e
      | .ok idx =>
          match gatherOthers d cs seeds.tail with
          | .error e => .error e
          | .ok rest => .ok ((lookupData d.data idx).get d.dataKeyLeft :: rest)

/-- `SiameseDirDataset.one_shot_trial` (lines 144-167). -/
def SiameseData.oneShotTrial (d : SiameseData) (n : ℕ) (t : TrialTape) :
    Except SamplingError (List Val × List Val) :=
  if ¬ 1 < n then .error .nTooSmall
  else if ¬ n ≤ d.classData.length then .error .nTooLarge
  else
    match chooseNoReplace 0 (classKeys d.classData) n t.classSeeds with
    | .error e => .error e
    | .ok classes =>
        match chooseNoReplace 0
            (finsetAsc (classLookup d.classData (classes.headD 0))) 2
            t.baseSeeds with
        | .error e => .error e
        | .ok baseIdxs =>
            let l1 := List.replicate n
              ((lookupData d.data (baseIdxs.getD 0 0)).get d.dataKeyLeft)
            match gatherOthers d classes.tail t.itemSeeds with
            | .error e => .error e
            | .ok rest =>
                .ok (l1,
                  ((lookupData d.data (baseIdxs.getD 1 0)).get d.dataKeyLeft) :: rest)

/-! ## Helper lemmas about records and sampling -/

theorem Record.get_set_same (r : Record) (k : String) (v : Val) :
    (r.set k v).get k = v := by
  induction r with
  | nil => simp [Record.set, Record.get]
  | cons p rest ih =>
    obtain ⟨k', v'⟩ := p
    by_cases h : k' = k
    · subst h; simp [Record.set, Record.get]
    · simp [Record.set, h, Record.get, ih]

theorem Record.get_set_ne (r : Record) (k k' : String) (v : Val)
    (h : ¬ k = k') : (r.set k v).get k' = r.get k' := by
  induction r with
  | nil => simp [Record.set, Record.get, h]
  | cons p rest ih =>
    obtain ⟨k0, v0⟩ := p
    by_cases h0 : k0 = k
    · subst h0; simp [Record.set, Record.get, h]
    · simp [Record.set, h0, Record.get, ih]

theorem chooseIdx_ok_mem {s : Finset ℕ} {k x : ℕ}
    (h : chooseIdx s k = .ok x) : x ∈ s := by
  unfold chooseIdx at h
  by_cases he : (finsetAsc s).isEmpty
  · simp [he] at h
  · simp only [he, if_neg, Bool.false_eq_true, not_false_eq_true, if_false] at h
    have hne : finsetAsc s ≠ [] := by
      intro h0; rw [h0] at he; exact he rfl
    have hlen : 0 < (finsetAsc s).length := List.length_pos.mpr hne
    have hlt : k % (finsetAsc s).length < (finsetAsc s).length :=
      Nat.mod_lt _ hlen
    have := List.getD_eq_getElem (l := finsetAsc s) (d := 0) hlt
    rw [this] at h
    have hx : (finsetAsc s)[k % (finsetAsc s).length] ∈ finsetAsc s :=
      List.getElem_mem _
    rw [Except.ok.injEq] at h
    rw [← h]
    exact (mem_finsetAsc s _).mp hx

theorem chooseVal_ok_mem {l : List Val} {k : ℕ} {x : Val}
    (h : chooseVal l k = .ok x) : x ∈ l := by
  unfold chooseVal at h
  by_cases he : l.isEmpty
  · simp [he] at h
  · simp only [he, Bool.false_eq_true, not_false_eq_true, if_false] at h
    have hne : l ≠ [] := by
      intro h0; rw [h0] at he; exact he rfl
    have hlen : 0 < l.length := List.length_pos.mpr hne
    have hlt : k % l.length < l.length := Nat.mod_lt _ hlen
    have := List.getD_eq_getElem (l := l) (d := 0) hlt
    rw [this] at h
    rw [Except.ok.injEq] at h
    rw [← h]
    exact List.getElem_mem _

/-! ## Claim C3 -/

/-- C3: for a `SiameseDirDataset` index whose class has exactly one member,
item access with the same-class (match) branch selected fails with a sampling
error: the partner domain `class minus index` is empty, so `np.random.choice`
raises. -/
theorem getitem_singleton_class_fails (d : SiameseData) (index : ℕ) (t : Tape)
    (hcls : classLookup d.classData ((lookupData d.data index).get d.labelKey)
      = {index})
    (hu : t.u < d.percentMatching) :
    d.getItem index t = .error .emptyDomain := by
  unfold SiameseData.getItem
  rw [if_pos hu, hcls]
  simp [chooseIdx, Finset.erase_singleton, finsetAsc_empty]

def recEx (x y : Val) : Record := [("x_a", x), ("y", y)]

/-- Three records, label 0 owning only index 0, label 1 owning 1 and 2. -/
def dataEx1 : DataMap := [(0, recEx 100 0), (1, recEx 101 1), (2, recEx 102 1)]

def dEx1 : SiameseData := mkSiamese dataEx1 "x_a" "x_b" "y" 1

theorem getitem_singleton_class_fails_witness :
    dEx1.getItem 0 ⟨0, 0, 0⟩ = .error .emptyDomain :=
  getitem_singleton_class_fails dEx1 0 ⟨0, 0, 0⟩ (by decide) (by decide)

/-! ## Claim C7 -/

/-- C7: successful item access returns a copy of the stored record (the
embedding's `Record.set` is persistent, so `d.data` is untouched) augmented as
follows: every key other than the right key and the label key keeps its
original value (in particular the left key); when the match branch is selected
(`u < p`) the label is 1 and the right value is the left value of another
instance of the same class; otherwise the label is 0 and the right value is
the left value of an instance of some different class. -/
theorem getitem_pair_semantics (d : SiameseData) (index : ℕ) (t : Tape)
    (r : Record) (hmem : index ∈ dataKeys d.data)
    (h1 : ¬ d.dataKeyLeft = d.dataKeyRight) (h2 : ¬ d.dataKeyLeft = d.labelKey)
    (h3 : ¬ d.dataKeyRight = d.labelKey)
    (h : d.getItem index t = .ok r) :
    (∀ k, ¬ k = d.dataKeyRight → ¬ k = d.labelKey →
        r.get k = (lookupData d.data index).get k) ∧
    r.get d.dataKeyLeft = (lookupData d.data index).get d.dataKeyLeft ∧
    (t.u < d.percentMatching →
      r.get d.labelKey = 1 ∧
      ∃ other,
        other ∈ classLookup d.classData ((lookupData d.data index).get d.labelKey) ∧
        ¬ other = index ∧
        r.get d.dataKeyRight = (lookupData d.data other).get d.dataKeyLeft) ∧
    (¬ t.u < d.percentMatching →
      r.get d.labelKey = 0 ∧
      ∃ c, c ∈ classKeys d.classData ∧
        ¬ c = (lookupData d.data index).get d.labelKey ∧
        ∃ other, other ∈ classLookup d.classData c ∧
          r.get d.dataKeyRight = (lookupData d.data other).get d.dataKeyLeft) := by
  by_cases hu : t.u < d.percentMatching
  · simp only [SiameseData.getItem, if_pos hu] at h
    split at h
    · simp at h
    · rename_i other hch
      simp only [Except.ok.injEq] at h
      subst h
      have hget : ∀ k, ¬ k = d.dataKeyRight → ¬ k = d.labelKey →
          (((lookupData d.data index).set d.dataKeyRight
              ((lookupData d.data other).get d.dataKeyLeft)).set d.labelKey
            1).get k = (lookupData d.data index).get k := by
        intro k hk1 hk2
        rw [Record.get_set_ne _ _ _ _ (fun hEq => hk2 hEq.symm),
          Record.get_set_ne _ _ _ _ (fun hEq => hk1 hEq.symm)]
      refine ⟨hget, hget _ h1 h2, fun _ => ?_, fun hn => absurd hu hn⟩
      have hoth := chooseIdx_ok_mem hch
      rw [Finset.mem_erase] at hoth
      refine ⟨Record.get_set_same _ _ _, other, hoth.2, hoth.1, ?_⟩
      rw [Record.get_set_ne _ _ _ _ (fun hEq => h3 hEq.symm),
        Record.get_set_same]
  · simp only [SiameseData.getItem, if_neg hu] at h
    split at h
    · simp at h
    · rename_i otherClass hcv
      split at h
      · simp at h
      · rename_i other hch
        simp only [Except.ok.injEq] at h
        subst h
        have hget : ∀ k, ¬ k = d.dataKeyRight → ¬ k = d.labelKey →
            (((lookupData d.data index).set d.dataKeyRight
                ((lookupData d.data other).get d.dataKeyLeft)).set d.labelKey
              0).get k = (lookupData d.data index).get k := by
          intro k hk1 hk2
          rw [Record.get_set_ne _ _ _ _ (fun hEq => hk2 hEq.symm),
            Record.get_set_ne _ _ _ _ (fun hEq => hk1 hEq.symm)]
        refine ⟨hget, hget _ h1 h2, fun hyes => absurd hyes hu, fun _ => ?_⟩
        have hcls := chooseVal_ok_mem hcv
        rw [List.mem_filter] at hcls
        have hoth := chooseIdx_ok_mem hch
        refine ⟨Record.get_set_same _ _ _, otherClass, hcls.1,
          by simpa using hcls.2, other, hoth, ?_⟩
        rw [Record.get_set_ne _ _ _ _ (fun hEq => h3 hEq.symm),
          Record.get_set_same]

theorem getitem_pair_semantics_witness :
    ((∀ k, ¬ k = "x_b" → ¬ k = "y" →
        Record.get [("x_a", (101 : Val)), ("y", 1), ("x_b", 102)] k =
          (lookupData dEx1.data 1).get k) ∧
      Record.get [("x_a", (101 : Val)), ("y", 1), ("x_b", 102)] "x_a" =
        (lookupData dEx1.data 1).get "x_a" ∧
      ((0 : ℚ) < dEx1.percentMatching →
        Record.get [("x_a", (101 : Val)), ("y", 1), ("x_b", 102)] "y" = 1 ∧
        ∃ other,
          other ∈ classLookup dEx1.classData ((lookupData dEx1.data 1).get "y") ∧
          ¬ other = 1 ∧
          Record.get [("x_a", (101 : Val)), ("y", 1), ("x_b", 102)] "x_b" =
            (lookupData dEx1.data other).get "x_a") ∧
      (¬ (0 : ℚ) < dEx1.percentMatching →
        Record.get [("x_a", (101 : Val)), ("y", 1), ("x_b", 102)] "y" = 0 ∧
        ∃ c, c ∈ classKeys dEx1.classData ∧
          ¬ c = (lookupData dEx1.data 1).get "y" ∧
          ∃ other, other ∈ classLookup dEx1.classData c ∧
            Record.get [("x_a", (101 : Val)), ("y", 1), ("x_b", 102)] "x_b" =
              (lookupData dEx1.data other).get "x_a")) :=
  getitem_pair_semantics dEx1 1 ⟨0, 0, 0⟩
    [("x_a", 101), ("y", 1), ("x_b", 102)] (by decide) (by decide) (by decide)
    (by decide) (by decide)

/-! ## Claim C2 -/

/-- `splitCore` in the fully-resolved regime: once the descriptor list is
non-empty, the method valid and every descriptor well-typed, the two sum
checks decide the outcome. -/
theorem splitCore_eq_of_resolved (size : ℕ) (descs : List Descriptor)
    (method : String) (pool : List ℕ) (h1 : ¬ descs.isEmpty = true)
    (h2 : method = "random" ∨ method = "from_front" ∨ method = "from_back")
    (h3 : Descriptor.invalid ∉ descs) :
    splitCore size descs method pool =
      if 1 ≤ fracSumOf descs then .error .fracSumTooBig
      else if (size : ℤ) ≤ intSumOf size descs then .error .countSumTooBig
      else .ok (takeSlices
        (selectIndices size (intSumOf size descs) method pool) 0
        (nSamplesOf size descs)) := by
  unfold splitCore
  rw [if_neg h1, if_neg (not_not_intro h2),
    resolveDescriptors_no_invalid size descs h3]

/-- Any of the five precondition violations makes `splitCore` fail. -/
theorem splitCore_error_of_violation (size : ℕ) (descs : List Descriptor)
    (method : String) (pool : List ℕ)
    (hviol : descs = [] ∨
      ¬ (method = "random" ∨ method = "from_front" ∨ method = "from_back") ∨
      Descriptor.invalid ∈ descs ∨
      1 ≤ fracSumOf descs ∨
      (size : ℤ) ≤ intSumOf size descs) :
    ∃ e, splitCore size descs method pool = .error e := by
  by_cases h1 : descs.isEmpty
  · exact ⟨.noDescriptors, by unfold splitCore; rw [if_pos h1]⟩
  · by_cases h2 : method = "random" ∨ method = "from_front" ∨ method = "from_back"
    · by_cases h3 : Descriptor.invalid ∈ descs
      · refine ⟨.badType, ?_⟩
        unfold splitCore
        rw [if_neg h1, if_neg (not_not_intro h2)]
        have hres : resolveDescriptors size descs = .error .badType := by
          unfold resolveDescriptors
          exact resolveLoop_invalid_mem size descs h3 0 0 []
        rw [hres]
      · rw [splitCore_eq_of_resolved size descs method pool h1 h2 h3]
        rcases hviol with rfl | hv | hv | hv | hv
        · exact (h1 rfl).elim
        · exact absurd h2 hv
        · exact absurd hv h3
        · exact ⟨.fracSumTooBig, by rw [if_pos hv]⟩
        · by_cases h4 : 1 ≤ fracSumOf descs
          · exact ⟨.fracSumTooBig, by rw [if_pos h4]⟩
          · exact ⟨.countSumTooBig, by rw [if_neg h4, if_pos hv]⟩
    · exact ⟨.badMethod, by unfold splitCore; rw [if_neg h1, if_pos h2]⟩

/-- C2: a call to `split` violating a precondition (no descriptors; strategy
not one of random/from_front/from_back; a descriptor neither float nor int;
fraction-sum ≥ 1.0; resolved-count-sum ≥ the effective length) fails with a
validation error raised before any mutation: the returned source state — its
records, keys and class index — is exactly the input dataset. -/
theorem split_validation_fail_fast (d : SiameseData) (descs : List Descriptor)
    (method : String) (pool : List ℕ)
    (hviol : descs = [] ∨
      ¬ (method = "random" ∨ method = "from_front" ∨ method = "from_back") ∨
      Descriptor.invalid ∈ descs ∨
      1 ≤ fracSumOf descs ∨
      (d.splitLength : ℤ) ≤ intSumOf d.splitLength descs) :
    ∃ e, d.split descs method pool = (.error e, d) := by
  obtain ⟨e, he⟩ := splitCore_error_of_violation d.splitLength descs method pool hviol
  exact ⟨e, by unfold SiameseData.split; rw [he]⟩

theorem split_validation_fail_fast_witness :
    ∃ e, dEx1.split [Descriptor.count 1] "from_middle" [] = (.error e, dEx1) :=
  split_validation_fail_fast dEx1 [Descriptor.count 1] "from_middle" []
    (Or.inr (Or.inl (by decide)))

/-! ## Claim C1 -/

/-- The number of distinct classes of a dataset: the number of distinct label
values among its records. -/
def numClasses (d : SiameseData) : ℕ :=
  ((d.data.map (fun p => (p.2 : Record).get d.labelKey)).toFinset).card

theorem length_dataToClass (data : DataMap) (k : String) :
    (dataToClass data k).length =
      ((data.map (fun p => (p.2 : Record).get k)).toFinset).card := by
  have h1 : (dataToClass data k).length = (classKeys (dataToClass data k)).length := by
    simp [classKeys]
  have h2 := classKeys_nodup_dataToClass data k
  have h3 : (classKeys (dataToClass data k)).toFinset =
      (data.map (fun p => (p.2 : Record).get k)).toFinset := by
    ext c
    simp only [List.mem_toFinset]
    exact mem_classKeys_dataToClass data k c
  rw [h1, ← List.toFinset_card_of_nodup h2, h3]

theorem fracSumOf_map_frac (qs : List ℚ) :
    fracSumOf (qs.map Descriptor.frac) = qs.sum := by
  unfold fracSumOf
  rw [List.map_map,
    show ((fun d => match d with
      | Descriptor.frac q => q
      | _ => 0) ∘ Descriptor.frac) = (id : ℚ → ℚ) from rfl,
    List.map_id]

theorem nSamplesOf_map_frac (size : ℕ) (qs : List ℚ) :
    nSamplesOf size (qs.map Descriptor.frac) =
      qs.map (fun q => ⌈(size : ℚ) * q⌉) := by
  unfold nSamplesOf
  rw [List.map_map]
  rfl

/-- C1: for a class-grouped dataset the `split` descriptors are resolved
against the effective split length `_split_length() = len(self.class_data)`,
i.e. the number of distinct classes rather than the number of raw instances:
every float descriptor `q` resolves to `⌈q * numClasses⌉`, and the call
succeeds only when the resolved counts sum to strictly less than the number of
classes (otherwise it fails the count-sum validation). -/
theorem siamese_split_resolves_by_class_count (d : SiameseData) (qs : List ℚ)
    (method : String) (pool : List ℕ)
    (hwf : d.classData = dataToClass d.data d.labelKey)
    (hne : qs ≠ [])
    (hm : method = "random" ∨ method = "from_front" ∨ method = "from_back")
    (hf : qs.sum < 1) :
    ((qs.map (fun q => ⌈(numClasses d : ℚ) * q⌉)).sum < (numClasses d : ℤ) →
      ∃ res src, d.split (qs.map Descriptor.frac) method pool = (.ok res, src)) ∧
    ((numClasses d : ℤ) ≤ (qs.map (fun q => ⌈(numClasses d : ℚ) * q⌉)).sum →
      (d.split (qs.map Descriptor.frac) method pool).1
        = .error .countSumTooBig) := by
  have hL : d.splitLength = numClasses d := by
    rw [SiameseData.splitLength, hwf, length_dataToClass]
    rfl
  have h1 : ¬ (qs.map Descriptor.frac).isEmpty = true := by
    simp [List.isEmpty_iff, hne]
  have h3 : Descriptor.invalid ∉ qs.map Descriptor.frac := by
    simp
  have hcore := splitCore_eq_of_resolved d.splitLength (qs.map Descriptor.frac)
    method pool h1 hm h3
  rw [fracSumOf_map_frac] at hcore
  rw [if_neg (not_le.mpr hf)] at hcore
  have hint : intSumOf d.splitLength (qs.map Descriptor.frac) =
      (qs.map (fun q => ⌈(numClasses d : ℚ) * q⌉)).sum := by
    unfold intSumOf
    rw [nSamplesOf_map_frac, hL]
  constructor
  · intro hlt
    rw [if_neg (by rw [hint, hL]; exact not_le.mpr hlt)] at hcore
    refine ⟨((d.doSplit (takeSlices
        (selectIndices d.splitLength
          (intSumOf d.splitLength (qs.map Descriptor.frac)) method pool) 0
        (nSamplesOf d.splitLength (qs.map Descriptor.frac)))).2),
      ((d.doSplit (takeSlices
        (selectIndices d.splitLength
          (intSumOf d.splitLength (qs.map Descriptor.frac)) method pool) 0
        (nSamplesOf d.splitLength (qs.map Descriptor.frac)))).1), ?_⟩
    unfold SiameseData.split
    rw [hcore]
  · intro hge
    rw [if_pos (by rw [hint, hL]; exact hge)] at hcore
    unfold SiameseData.split
    rw [hcore]

theorem siamese_split_resolves_by_class_count_witness :
    (((([(1 / 2 : ℚ)]).map (fun q => ⌈(numClasses dEx1 : ℚ) * q⌉)).sum
        < (numClasses dEx1 : ℤ) →
      ∃ res src, dEx1.split ([(1 / 2 : ℚ)].map Descriptor.frac) "from_front" []
        = (.ok res, src)) ∧
    ((numClasses dEx1 : ℤ) ≤
        (([(1 / 2 : ℚ)]).map (fun q => ⌈(numClasses dEx1 : ℚ) * q⌉)).sum →
      (dEx1.split ([(1 / 2 : ℚ)].map Descriptor.frac) "from_front" []).1
        = .error .countSumTooBig)) :=
  siamese_split_resolves_by_class_count dEx1 [1 / 2] "from_front" []
    (by rfl) (by simp) (by simp) (by norm_num)

/-! ## Claim C8: index selection and slicing -/

theorem length_sliceOf (indices : List ℕ) (start stop : ℤ) :
    (sliceOf indices start stop).length = stop.toNat := by
  unfold sliceOf
  rw [List.length_map, List.length_range]

theorem sliceOf_eq (indices : List ℕ) (start stop : ℤ)
    (hs : 0 ≤ start) (hp : 0 ≤ stop)
    (hb : start.toNat + stop.toNat ≤ indices.length) :
    sliceOf indices start stop = (indices.drop start.toNat).take stop.toNat := by
  apply List.ext_getElem
  · rw [length_sliceOf]
    rw [List.length_take, List.length_drop]
    omega
  · intro n h1 h2
    rw [length_sliceOf] at h1
    unfold sliceOf
    rw [List.getElem_map, List.getElem_range]
    have htn : (start + (n : ℤ)).toNat = start.toNat + n := by omega
    have hlt : start.toNat + n < indices.length := by omega
    rw [htn, List.getD_eq_getElem _ _ hlt]
    rw [List.getElem_take, List.getElem_drop]

theorem takeSlices_lengths (indices : List ℕ) (counts : List ℤ) (start : ℤ) :
    (takeSlices indices start counts).map List.length = counts.map Int.toNat := by
  induction counts generalizing start with
  | nil => simp [takeSlices]
  | cons c cs ih =>
    simp only [takeSlices, List.map_cons, length_sliceOf]
    rw [ih]

theorem takeSlices_flatten (indices : List ℕ) (counts : List ℤ) (start : ℤ)
    (hs : 0 ≤ start) (hpos : ∀ c ∈ counts, 0 ≤ c)
    (hb : start + counts.sum ≤ (indices.length : ℤ)) :
    (takeSlices indices start counts).flatten =
      (indices.drop start.toNat).take counts.sum.toNat := by
  induction counts generalizing start with
  | nil => simp [takeSlices]
  | cons c cs ih =>
    have hc : 0 ≤ c := hpos c (List.mem_cons_self _ _)
    have hcs : ∀ x ∈ cs, 0 ≤ x := fun x hx => hpos x (List.mem_cons_of_mem _ hx)
    have hsum : 0 ≤ cs.sum := List.sum_nonneg hcs
    rw [List.sum_cons] at hb
    simp only [takeSlices, List.flatten_cons, List.sum_cons]
    rw [sliceOf_eq indices start c hs hc (by omega)]
    rw [ih (start + c) (by omega) hcs (by omega)]
    have h1 : (c + cs.sum).toNat = c.toNat + cs.sum.toNat := by omega
    have h2 : (start + c).toNat = start.toNat + c.toNat := by omega
    rw [h1, h2, List.take_add]
    have h3 : List.drop c.toNat (List.drop start.toNat indices)
        = List.drop (start.toNat + c.toNat) indices := by
      rw [List.drop_drop]
    rw [h3]

theorem resolvedCount_nonneg (size : ℕ) (dsc : Descriptor)
    (h : dsc.valid) : 0 ≤ resolvedCount size dsc := by
  cases dsc with
  | frac q =>
    have h0 : (0 : ℚ) ≤ (size : ℚ) * q :=
      mul_nonneg (by positivity) (le_of_lt h.1)
    exact Int.ceil_nonneg h0
  | count n => exact h
  | invalid => cases h

theorem intSumOf_nonneg (size : ℕ) (descs : List Descriptor)
    (hv : ∀ dsc ∈ descs, dsc.valid) : 0 ≤ intSumOf size descs := by
  unfold intSumOf nSamplesOf
  apply List.sum_nonneg
  intro x hx
  rw [List.mem_map] at hx
  obtain ⟨dsc, hd, rfl⟩ := hx
  exact resolvedCount_nonneg size dsc (hv dsc hd)

theorem valid_no_invalid (descs : List Descriptor)
    (hv : ∀ dsc ∈ descs, dsc.valid) : Descriptor.invalid ∉ descs := by
  intro hmem
  exact (hv _ hmem).elim

/-- Inverting a successful `splitCore` run: every guard passed and the result
is the sliced selection. -/
theorem splitCore_ok_inversion (size : ℕ) (descs : List Descriptor)
    (method : String) (pool : List ℕ) (slices : List (List ℕ))
    (h3 : Descriptor.invalid ∉ descs)
    (hok : splitCore size descs method pool = .ok slices) :
    ¬ descs.isEmpty = true ∧
    (method = "random" ∨ method = "from_front" ∨ method = "from_back") ∧
    fracSumOf descs < 1 ∧ intSumOf size descs < (size : ℤ) ∧
    slices = takeSlices
      (selectIndices size (intSumOf size descs) method pool) 0
      (nSamplesOf size descs) := by
  by_cases h1 : descs.isEmpty
  · unfold splitCore at hok
    rw [if_pos h1] at hok
    cases hok
  · by_cases h2 : method = "random" ∨ method = "from_front" ∨ method = "from_back"
    · rw [splitCore_eq_of_resolved size descs method pool h1 h2 h3] at hok
      by_cases h4 : 1 ≤ fracSumOf descs
      · rw [if_pos h4] at hok; cases hok
      · rw [if_neg h4] at hok
        by_cases h5 : (size : ℤ) ≤ intSumOf size descs
        · rw [if_pos h5] at hok; cases hok
        · rw [if_neg h5] at hok
          rw [Except.ok.injEq] at hok
          exact ⟨h1, h2, not_le.mp h4, not_le.mp h5, hok.symm⟩
    · unfold splitCore at hok
      rw [if_neg h1, if_pos h2] at hok
      cases hok

theorem selectIndices_random (size : ℕ) (intSum : ℤ) (pool : List ℕ) :
    selectIndices size intSum "random" pool = pool := by
  unfold selectIndices
  rw [if_pos rfl]

theorem selectIndices_front (size : ℕ) (intSum : ℤ) (pool : List ℕ) :
    selectIndices size intSum "from_front" pool = List.range intSum.toNat := by
  unfold selectIndices
  rw [if_neg (by decide), if_pos rfl]

theorem selectIndices_back (size : ℕ) (intSum : ℤ) (pool : List ℕ) :
    selectIndices size intSum "from_back" pool
      = (List.range intSum.toNat).map (fun j => size - 1 - j) := by
  unfold selectIndices
  rw [if_neg (by decide), if_neg (by decide), if_pos rfl]

theorem selectIndices_length (size : ℕ) (intSum : ℤ) (method : String)
    (pool : List ℕ)
    (hm : method = "random" ∨ method = "from_front" ∨ method = "from_back")
    (hpool : method = "random" → pool.length = intSum.toNat) :
    (selectIndices size intSum method pool).length = intSum.toNat := by
  rcases hm with hm | hm | hm <;> subst hm
  · rw [selectIndices_random]
    exact hpool rfl
  · rw [selectIndices_front, List.length_range]
  · rw [selectIndices_back, List.length_map, List.length_range]

theorem selectIndices_spec (size : ℕ) (intSum : ℤ) (method : String)
    (pool : List ℕ)
    (hm : method = "random" ∨ method = "from_front" ∨ method = "from_back")
    (hnn : 0 ≤ intSum) (hle : intSum < (size : ℤ))
    (hpool : method = "random" →
      pool.Nodup ∧ pool.length = intSum.toNat ∧ ∀ i ∈ pool, i < size) :
    (selectIndices size intSum method pool).Nodup ∧
    (∀ i ∈ selectIndices size intSum method pool, i < size) := by
  have hS : intSum.toNat ≤ size := by omega
  rcases hm with hm | hm | hm <;> subst hm
  · rw [selectIndices_random]
    exact ⟨(hpool rfl).1, (hpool rfl).2.2⟩
  · rw [selectIndices_front]
    refine ⟨List.nodup_range _, ?_⟩
    intro i hi
    rw [List.mem_range] at hi
    omega
  · rw [selectIndices_back]
    constructor
    · refine List.Nodup.map_on ?_ (List.nodup_range intSum.toNat)
      intro x hx y hy hxy
      rw [List.mem_range] at hx hy
      omega
    · intro i hi
      rw [List.mem_map] at hi
      obtain ⟨j, hj, rfl⟩ := hi
      rw [List.mem_range] at hj
      omega

/-- C8: under a valid call, `from_front` selects the first `sum(counts)`
indices in increasing order, `from_back` the last `sum(counts)` indices in
decreasing (closest-to-end first) order, `random` the oracle pool (distinct
in-range indices of the right length, as `random.sample` guarantees); the
selected pool is cut, in descriptor order, into contiguous slices whose sizes
are the resolved counts and whose concatenation is exactly the selection. -/
theorem split_index_selection (size : ℕ) (descs : List Descriptor)
    (method : String) (pool : List ℕ) (slices : List (List ℕ))
    (hv : ∀ dsc ∈ descs, dsc.valid)
    (hpool : method = "random" →
      pool.Nodup ∧ pool.length = (intSumOf size descs).toNat ∧
        ∀ i ∈ pool, i < size)
    (hok : splitCore size descs method pool = .ok slices) :
    (method = "from_front" →
      selectIndices size (intSumOf size descs) method pool
        = (List.range size).take (intSumOf size descs).toNat) ∧
    (method = "from_back" →
      selectIndices size (intSumOf size descs) method pool
        = ((List.range size).drop (size - (intSumOf size descs).toNat)).reverse) ∧
    (method = "random" →
      selectIndices size (intSumOf size descs) method pool = pool) ∧
    (selectIndices size (intSumOf size descs) method pool).Nodup ∧
    (∀ i ∈ selectIndices size (intSumOf size descs) method pool, i < size) ∧
    slices.map List.length = (nSamplesOf size descs).map Int.toNat ∧
    slices.flatten = selectIndices size (intSumOf size descs) method pool := by
  obtain ⟨h1, h2, hfrac, hint, hsl⟩ :=
    splitCore_ok_inversion size descs method pool slices
      (valid_no_invalid descs hv) hok
  have hnn : 0 ≤ intSumOf size descs := intSumOf_nonneg size descs hv
  have hS : (intSumOf size descs).toNat ≤ size := by omega
  have hlen : (selectIndices size (intSumOf size descs) method pool).length
      = (intSumOf size descs).toNat :=
    selectIndices_length size _ method pool h2 (fun hr => ((hpool hr).2.1))
  have hspec := selectIndices_spec size (intSumOf size descs) method pool h2
    hnn hint hpool
  refine ⟨?_, ?_, ?_, hspec.1, hspec.2, ?_, ?_⟩
  · intro hm
    subst hm
    rw [selectIndices_front, List.take_range]
    congr 1
    omega
  · intro hm
    subst hm
    rw [selectIndices_back]
    apply List.ext_getElem
    · rw [List.length_map, List.length_range, List.length_reverse,
        List.length_drop, List.length_range]
      omega
    · intro n hn1 hn2
      rw [List.length_map, List.length_range] at hn1
      rw [List.getElem_map, List.getElem_range, List.getElem_reverse]
      rw [List.getElem_drop, List.getElem_range]
      rw [List.length_drop, List.length_range]
      omega
  · intro hm
    subst hm
    rw [selectIndices_random]
  · rw [hsl]
    exact takeSlices_lengths _ _ _
  · rw [hsl]
    have hsum : (nSamplesOf size descs).sum = intSumOf size descs := rfl
    have hposc : ∀ c ∈ nSamplesOf size descs, 0 ≤ c := by
      intro c hc
      rw [nSamplesOf, List.mem_map] at hc
      obtain ⟨dsc, hd, rfl⟩ := hc
      exact resolvedCount_nonneg size dsc (hv dsc hd)
    rw [takeSlices_flatten _ _ 0 le_rfl hposc (by rw [hsum, hlen]; omega)]
    rw [hsum, Int.toNat_zero, List.drop_zero, ← hlen]
    exact List.take_length _

theorem split_index_selection_witness :
    (("from_back" = "from_front" →
      selectIndices 5 (intSumOf 5 [Descriptor.count 1, Descriptor.count 2])
          "from_back" []
        = (List.range 5).take
            (intSumOf 5 [Descriptor.count 1, Descriptor.count 2]).toNat) ∧
    ("from_back" = "from_back" →
      selectIndices 5 (intSumOf 5 [Descriptor.count 1, Descriptor.count 2])
          "from_back" []
        = ((List.range 5).drop
            (5 - (intSumOf 5 [Descriptor.count 1, Descriptor.count 2]).toNat)).reverse) ∧
    ("from_back" = "random" →
      selectIndices 5 (intSumOf 5 [Descriptor.count 1, Descriptor.count 2])
          "from_back" [] = []) ∧
    (selectIndices 5 (intSumOf 5 [Descriptor.count 1, Descriptor.count 2])
        "from_back" []).Nodup ∧
    (∀ i ∈ selectIndices 5 (intSumOf 5 [Descriptor.count 1, Descriptor.count 2])
        "from_back" [], i < 5) ∧
    [[4], [3, 2]].map List.length
      = (nSamplesOf 5 [Descriptor.count 1, Descriptor.count 2]).map Int.toNat ∧
    ([[4], [3, 2]] : List (List ℕ)).flatten
      = selectIndices 5 (intSumOf 5 [Descriptor.count 1, Descriptor.count 2])
          "from_back" []) :=
  split_index_selection 5 [Descriptor.count 1, Descriptor.count 2] "from_back"
    [] [[4], [3, 2]] (by intro dsc hd; fin_cases hd <;> simp [Descriptor.valid])
    (fun h => absurd h (by decide)) (by decide)

/-! ## Claims C5 and C6: post-split invariants -/

theorem doSplitLoop_cons (cd : ClassMap) (keys : List Val) (data : DataMap)
    (s : List ℕ) (rest : List (List ℕ)) :
    doSplitLoop cd keys data (s :: rest) =
      ((doSplitLoop cd keys
          (popAll data (classIdxToDataIdx cd keys s)).2 rest).1,
       (popAll data (classIdxToDataIdx cd keys s)).1.enum ::
         (doSplitLoop cd keys
           (popAll data (classIdxToDataIdx cd keys s)).2 rest).2) := rfl

theorem doSplitLoop_results_enum (cd : ClassMap) (keys : List Val)
    (data : DataMap) (splits : List (List ℕ)) :
    ∀ nd ∈ (doSplitLoop cd keys data splits).2,
      ∃ vs : List Record, nd = vs.enum := by
  induction splits generalizing data with
  | nil => intro nd hnd; simp [doSplitLoop] at hnd
  | cons s rest ih =>
    intro nd hnd
    rw [doSplitLoop_cons] at hnd
    rcases List.mem_cons.mp hnd with he | hm
    · exact ⟨_, he⟩
    · exact ih _ nd hm

theorem dataKeys_enum (vs : List Record) :
    dataKeys vs.enum = List.range vs.enum.length := by
  unfold dataKeys
  rw [List.enum_map_fst, List.enum_length]

/-- `SiameseData.doSplit` written with projections instead of `let`-matching. -/
theorem doSplit_eq (d : SiameseData) (splits : List (List ℕ)) :
    d.doSplit splits =
      ({ d with
          data := ((doSplitLoop d.classData (sortedKeys d.classData) d.data
            splits).1.map (·.2)).enum,
          classData := dataToClass
            ((doSplitLoop d.classData (sortedKeys d.classData) d.data
              splits).1.map (·.2)).enum d.labelKey },
       (doSplitLoop d.classData (sortedKeys d.classData) d.data splits).2.map
         (fun nd => { d with
            data := nd, classData := dataToClass nd d.labelKey })) := rfl

/-- Inverting a successful `split`. -/
theorem split_ok_inversion (d : SiameseData) (descs : List Descriptor)
    (method : String) (pool : List ℕ) (res : List SiameseData)
    (src : SiameseData)
    (h : d.split descs method pool = (.ok res, src)) :
    ∃ slices, splitCore d.splitLength descs method pool = .ok slices ∧
      src = (d.doSplit slices).1 ∧ res = (d.doSplit slices).2 := by
  unfold SiameseData.split at h
  cases hc : splitCore d.splitLength descs method pool with
  | error e =>
    rw [hc] at h
    simp at h
  | ok slices =>
    rw [hc] at h
    have h1 := (Prod.ext_iff.mp h).1
    have h2 := (Prod.ext_iff.mp h).2
    simp only [Except.ok.injEq] at h1
    exact ⟨slices, rfl, h2.symm, h1.symm⟩

/-- C5: after a successful split of a `SiameseDirDataset`, the re-keyed source
and every produced dataset have record keys exactly `0..len-1`, in order, with
no gaps. -/
theorem split_rekeys_contiguous (d : SiameseData) (descs : List Descriptor)
    (method : String) (pool : List ℕ) (res : List SiameseData)
    (src : SiameseData)
    (h : d.split descs method pool = (.ok res, src)) :
    dataKeys src.data = List.range src.data.length ∧
    ∀ r ∈ res, dataKeys r.data = List.range r.data.length := by
  obtain ⟨slices, hc, hsrc, hres⟩ := split_ok_inversion d descs method pool res src h
  constructor
  · rw [hsrc, doSplit_eq]
    exact dataKeys_enum _
  · intro r hr
    rw [hres, doSplit_eq] at hr
    rw [List.mem_map] at hr
    obtain ⟨nd, hnd, rfl⟩ := hr
    obtain ⟨vs, rfl⟩ := doSplitLoop_results_enum _ _ _ _ nd hnd
    exact dataKeys_enum vs

theorem split_rekeys_contiguous_witness :
    (dataKeys (dEx1.split [Descriptor.count 1] "from_front" []).2.data
        = List.range (dEx1.split [Descriptor.count 1] "from_front" []).2.data.length ∧
      ∀ r ∈ ([mkSiamese [(0, recEx 100 0)] "x_a" "x_b" "y" 1] : List SiameseData),
        dataKeys r.data = List.range r.data.length) :=
  split_rekeys_contiguous dEx1 [Descriptor.count 1] "from_front" []
    [mkSiamese [(0, recEx 100 0)] "x_a" "x_b" "y" 1]
    (dEx1.split [Descriptor.count 1] "from_front" []).2 (by decide)

/-! ### C6: the class-index invariant -/

/-- The union of all class-index sets. -/
def classUnion (cd : ClassMap) : Finset ℕ :=
  cd.foldr (fun p acc => p.2 ∪ acc) ∅

theorem mem_classUnion (cd : ClassMap) (i : ℕ) :
    i ∈ classUnion cd ↔ ∃ p ∈ cd, i ∈ (p.2 : Finset ℕ) := by
  induction cd with
  | nil => simp [classUnion]
  | cons p rest ih =>
    simp only [classUnion, List.foldr_cons, Finset.mem_union, List.mem_cons]
    rw [show (List.foldr (fun p acc => p.2 ∪ acc) ∅ rest) = classUnion rest
      from rfl, ih]
    constructor
    · rintro (h | ⟨q, hq, hi⟩)
      · exact ⟨p, Or.inl rfl, h⟩
      · exact ⟨q, Or.inr hq, hi⟩
    · rintro ⟨q, hq | hq, hi⟩
      · exact Or.inl (hq ▸ hi)
      · exact Or.inr ⟨q, hq, hi⟩

/-- The class-index invariant of the spec: the union of the per-class index
sets is exactly the dataset's key set, the class labels are pairwise distinct,
and the sets of any two distinct classes are disjoint. -/
def ClassIndexOk (d : SiameseData) : Prop :=
  classUnion d.classData = keyFinset d.data ∧
  (classKeys d.classData).Nodup ∧
  d.classData.Pairwise (fun a b => (a.2 : Finset ℕ) ∩ b.2 = ∅)

theorem mem_keyFinset (data : DataMap) (i : ℕ) :
    i ∈ keyFinset data ↔ ∃ r : Record, (i, r) ∈ data := by
  unfold keyFinset dataKeys
  rw [List.mem_toFinset, List.mem_map]
  constructor
  · rintro ⟨p, hp, he⟩
    exact ⟨p.2, by rwa [show ((i, p.2) : ℕ × Record) = p from Prod.ext he.symm rfl]⟩
  · rintro ⟨r, hr⟩
    exact ⟨(i, r), hr, rfl⟩

/-- A freshly rebuilt class index satisfies the invariant whenever the data
keys are distinct. -/
theorem dataToClass_invariant (data : DataMap) (k : String)
    (hnd : wellKeyed data) :
    classUnion (dataToClass data k) = keyFinset data ∧
    (classKeys (dataToClass data k)).Nodup ∧
    (dataToClass data k).Pairwise (fun a b => (a.2 : Finset ℕ) ∩ b.2 = ∅) := by
  have hkeys := classKeys_nodup_dataToClass data k
  refine ⟨?_, hkeys, ?_⟩
  · ext i
    rw [mem_classUnion, mem_keyFinset]
    constructor
    · rintro ⟨⟨c, s⟩, hp, hi⟩
      have hs : s = labelIdx data k c := by
        have := classLookup_of_mem (dataToClass data k) hkeys hp
        rw [classLookup_dataToClass] at this
        exact this.symm
      rw [hs, mem_labelIdx] at hi
      obtain ⟨r, hr, _⟩ := hi
      exact ⟨r, hr⟩
    · rintro ⟨r, hr⟩
      have hc : r.get k ∈ classKeys (dataToClass data k) := by
        rw [mem_classKeys_dataToClass, List.mem_map]
        exact ⟨(i, r), hr, rfl⟩
      rw [classKeys, List.mem_map] at hc
      obtain ⟨⟨c, s⟩, hp, he⟩ := hc
      refine ⟨(c, s), hp, ?_⟩
      have hs : s = labelIdx data k c := by
        have := classLookup_of_mem (dataToClass data k) hkeys hp
        rw [classLookup_dataToClass] at this
        exact this.symm
      rw [hs, mem_labelIdx]
      exact ⟨r, hr, by simpa using he.symm⟩
  · have hpw : (dataToClass data k).Pairwise (fun a b => a.1 ≠ b.1) :=
      List.pairwise_map.mp hkeys
    refine hpw.imp_of_mem ?_
    rintro ⟨c1, s1⟩ ⟨c2, s2⟩ h1 h2 hne
    have hs1 : s1 = labelIdx data k c1 := by
      have := classLookup_of_mem (dataToClass data k) hkeys h1
      rw [classLookup_dataToClass] at this
      exact this.symm
    have hs2 : s2 = labelIdx data k c2 := by
      have := classLookup_of_mem (dataToClass data k) hkeys h2
      rw [classLookup_dataToClass] at this
      exact this.symm
    rw [hs1, hs2]
    ext i
    simp only [Finset.mem_inter, Finset.not_mem_empty, iff_false, not_and]
    intro hi1 hi2
    rw [mem_labelIdx] at hi1 hi2
    obtain ⟨r1, hr1, hc1⟩ := hi1
    obtain ⟨r2, hr2, hc2⟩ := hi2
    have hrr := wellKeyed_unique hnd hr1 hr2
    subst hrr
    have : c1 = c2 := by rw [← hc1, ← hc2]
    exact hne this

theorem wellKeyed_enum (vs : List Record) : wellKeyed vs.enum := by
  unfold wellKeyed
  rw [dataKeys_enum]
  exact List.nodup_range _

/-- C6: the class-index invariant holds after construction (for any data with
distinct keys) and, for every successful split, for the mutated source and
every produced dataset. -/
theorem class_index_partition (data0 : DataMap) (kl kr lk : String) (pm : ℚ)
    (h0 : wellKeyed data0) (d : SiameseData) (descs : List Descriptor)
    (method : String) (pool : List ℕ) (res : List SiameseData)
    (src : SiameseData)
    (h : d.split descs method pool = (.ok res, src)) :
    ClassIndexOk (mkSiamese data0 kl kr lk pm) ∧
    ClassIndexOk src ∧ ∀ r ∈ res, ClassIndexOk r := by
  refine ⟨?_, ?_, ?_⟩
  · exact dataToClass_invariant data0 lk h0
  · obtain ⟨slices, hc, hsrc, _⟩ := split_ok_inversion d descs method pool res src h
    rw [hsrc, doSplit_eq]
    exact dataToClass_invariant _ _ (wellKeyed_enum _)
  · intro r hr
    obtain ⟨slices, hc, _, hres⟩ := split_ok_inversion d descs method pool res src h
    rw [hres, doSplit_eq] at hr
    rw [List.mem_map] at hr
    obtain ⟨nd, hnd, rfl⟩ := hr
    obtain ⟨vs, rfl⟩ := doSplitLoop_results_enum _ _ _ _ nd hnd
    exact dataToClass_invariant _ _ (wellKeyed_enum vs)

theorem class_index_partition_witness :
    (ClassIndexOk (mkSiamese [(0, recEx 100 0)] "x_a" "x_b" "y" 1) ∧
      ClassIndexOk (dEx1.split [Descriptor.count 1] "from_front" []).2 ∧
      ∀ r ∈ ([mkSiamese [(0, recEx 100 0)] "x_a" "x_b" "y" 1] : List SiameseData),
        ClassIndexOk r) :=
  class_index_partition [(0, recEx 100 0)] "x_a" "x_b" "y" 1
    (by unfold wellKeyed; decide)
    dEx1 [Descriptor.count 1] "from_front" []
    [mkSiamese [(0, recEx 100 0)] "x_a" "x_b" "y" 1]
    (dEx1.split [Descriptor.count 1] "from_front" []).2 (by decide)

/-! ## Claim C4: split sizes and disjointness (plain dataset) -/

/-- Looking a key up is unaffected by filtering with a key predicate that
holds at that key (only entries with other keys are removed, and the first
match for this key survives in place). -/
theorem lookupData_filter (data : DataMap) (Q : ℕ → Prop) [DecidablePred Q]
    (j : ℕ) (hQ : Q j) :
    lookupData (data.filter (fun p => Q p.1)) j = lookupData data j := by
  induction data with
  | nil => rfl
  | cons p rest ih =>
    obtain ⟨k, r⟩ := p
    by_cases hQk : Q k
    · rw [List.filter_cons_of_pos (by simpa using hQk)]
      by_cases hkj : k = j <;> simp [lookupData, hkj, ih]
    · rw [List.filter_cons_of_neg (by simpa using hQk)]
      have hkj : ¬ k = j := fun hEq => hQk (hEq ▸ hQ)
      simp [lookupData, hkj, ih]

/-- `popAll` on distinct indices: the popped values are the lookups in the
original dictionary and the remainder is the dictionary without those keys. -/
theorem popAll_spec (data : DataMap) (idxs : List ℕ) (hnd : idxs.Nodup) :
    (popAll data idxs).1 = idxs.map (lookupData data) ∧
    (popAll data idxs).2 = data.filter (fun p => p.1 ∉ idxs) := by
  induction idxs generalizing data with
  | nil =>
    constructor
    · rfl
    · simp [popAll]
  | cons i rest ih =>
    have hi : i ∉ rest := (List.nodup_cons.mp hnd).1
    have hr : rest.Nodup := (List.nodup_cons.mp hnd).2
    have hpop : popAll data (i :: rest)
        = (lookupData data i :: (popAll (removeKey data i) rest).1,
           (popAll (removeKey data i) rest).2) := rfl
    rw [hpop]
    obtain ⟨ih1, ih2⟩ := ih (removeKey data i) hr
    constructor
    · show lookupData data i :: (popAll (removeKey data i) rest).1
        = (i :: rest).map (lookupData data)
      rw [ih1, List.map_cons]
      congr 1
      apply List.map_congr_left
      intro j hj
      have hji : ¬ j = i := fun hEq => hi (hEq ▸ hj)
      exact lookupData_filter data (fun k => ¬ k = i) j hji
    · show (popAll (removeKey data i) rest).2
        = data.filter (fun p => p.1 ∉ i :: rest)
      rw [ih2]
      unfold removeKey
      rw [List.filter_filter]
      apply List.filter_congr
      intro p hp
      by_cases h1 : p.1 = i <;> by_cases h2 : p.1 ∈ rest <;>
        simp [h1, h2, List.mem_cons]

theorem plainDoSplitLoop_cons (data : DataMap) (s : List ℕ)
    (rest : List (List ℕ)) :
    plainDoSplitLoop data (s :: rest) =
      ((plainDoSplitLoop (popAll data s).2 rest).1,
       (popAll data s).1.enum :: (plainDoSplitLoop (popAll data s).2 rest).2) :=
  rfl

/-- The plain `_do_split` loop over pairwise-disjoint slices of distinct
indices: each new dataset holds exactly its slice's records (looked up in the
original dictionary, re-keyed by enumeration) and the remainder is the
original dictionary without all selected keys. -/
theorem plainDoSplitLoop_spec (data : DataMap) (splits : List (List ℕ))
    (hnd : ∀ s ∈ splits, s.Nodup) (hdisj : splits.Pairwise List.Disjoint) :
    (plainDoSplitLoop data splits).2
      = splits.map (fun s => (s.map (lookupData data)).enum) ∧
    (plainDoSplitLoop data splits).1
      = data.filter (fun p => ∀ s ∈ splits, p.1 ∉ s) := by
  induction splits generalizing data with
  | nil =>
    constructor
    · rfl
    · simp [plainDoSplitLoop]
  | cons s rest ih =>
    have hs : s.Nodup := hnd s (List.mem_cons_self _ _)
    have hrest : ∀ x ∈ rest, x.Nodup := fun x hx => hnd x (List.mem_cons_of_mem _ hx)
    have hdisj1 : ∀ x ∈ rest, s.Disjoint x := (List.pairwise_cons.mp hdisj).1
    have hdisj2 : rest.Pairwise List.Disjoint := (List.pairwise_cons.mp hdisj).2
    rw [plainDoSplitLoop_cons]
    obtain ⟨p1, p2⟩ := popAll_spec data s hs
    obtain ⟨i1, i2⟩ := ih (popAll data s).2 hrest hdisj2
    constructor
    · show (popAll data s).1.enum :: (plainDoSplitLoop (popAll data s).2 rest).2
        = (s :: rest).map (fun s => (s.map (lookupData data)).enum)
      rw [i1, p1, List.map_cons]
      congr 1
      apply List.map_congr_left
      intro s2 hs2
      congr 1
      apply List.map_congr_left
      intro j hj
      rw [p2]
      have hjs : j ∉ s := fun hjin => hdisj1 s2 hs2 hjin hj
      exact lookupData_filter data (fun k => k ∉ s) j hjs
    · show (plainDoSplitLoop (popAll data s).2 rest).1
        = data.filter (fun p => ∀ s2 ∈ s :: rest, p.1 ∉ s2)
      rw [i2, p2, List.filter_filter]
      apply List.filter_congr
      intro p hp
      by_cases h1 : p.1 ∈ s <;> by_cases h2 : ∀ x ∈ rest, p.1 ∉ x <;>
        simp [h1, h2, List.forall_mem_cons]

theorem length_filter_key_pred (data : DataMap) (P : ℕ → Prop)
    [DecidablePred P] :
    (data.filter (fun p => P p.1)).length
      = ((dataKeys data).filter (fun k => P k)).length := by
  induction data with
  | nil => rfl
  | cons p rest ih =>
    by_cases h : P p.1 <;>
      simp [List.filter_cons, dataKeys, h, ih] <;>
      simpa [dataKeys] using ih

theorem countP_range_mem (n : ℕ) (L : List ℕ) (hnd : L.Nodup)
    (hsub : ∀ x ∈ L, x < n) :
    ((List.range n).filter (fun k => k ∈ L)).length = L.length := by
  have h1 : ((List.range n).filter (fun k => k ∈ L)).Nodup :=
    (List.nodup_range n).filter _
  have h2 : ((List.range n).filter (fun k => k ∈ L)).toFinset = L.toFinset := by
    ext x
    simp only [List.mem_toFinset, List.mem_filter, List.mem_range]
    constructor
    · rintro ⟨_, hx⟩
      simpa using hx
    · intro hx
      exact ⟨hsub x hx, by simpa using hx⟩
  have h3 := List.toFinset_card_of_nodup h1
  have h4 := List.toFinset_card_of_nodup hnd
  rw [h2, h4] at h3
  exact h3.symm

theorem length_filter_not_mem_range (n : ℕ) (L : List ℕ) (hnd : L.Nodup)
    (hsub : ∀ x ∈ L, x < n) :
    ((List.range n).filter (fun k => k ∉ L)).length = n - L.length := by
  have hsplit : ((List.range n).filter (fun k => k ∈ L)).length
      + ((List.range n).filter (fun k => k ∉ L)).length
      = (List.range n).length := by
    rw [← List.countP_eq_length_filter, ← List.countP_eq_length_filter]
    have := List.length_eq_countP_add_countP (l := List.range n)
      (p := fun k => decide (k ∈ L))
    rw [this]
    congr 1
    apply List.countP_congr
    intro a ha
    simp
  rw [countP_range_mem n L hnd hsub, List.length_range] at hsplit
  omega

/-- Removing a set of distinct in-range keys from a contiguously keyed
dictionary shrinks it by exactly that many entries. -/
theorem length_filter_keys (data : DataMap) (L : List ℕ)
    (hcanon : dataKeys data = List.range data.length)
    (hnd : L.Nodup) (hsub : ∀ x ∈ L, x < data.length) :
    (data.filter (fun p => p.1 ∉ L)).length = data.length - L.length := by
  rw [length_filter_key_pred data (fun k => k ∉ L), hcanon,
    length_filter_not_mem_range data.length L hnd hsub]

theorem plainDoSplit_eq (d : PlainData) (splits : List (List ℕ)) :
    d.doSplit splits =
      (⟨((plainDoSplitLoop d.data splits).1.map (·.2)).enum⟩,
       (plainDoSplitLoop d.data splits).2.map (fun nd => ⟨nd⟩)) := rfl

theorem plain_split_ok_inversion (d : PlainData) (descs : List Descriptor)
    (method : String) (pool : List ℕ) (res : List PlainData) (src : PlainData)
    (h : d.split descs method pool = (.ok res, src)) :
    ∃ slices, splitCore d.data.length descs method pool = .ok slices ∧
      src = (d.doSplit slices).1 ∧ res = (d.doSplit slices).2 := by
  unfold PlainData.split at h
  cases hc : splitCore d.splitLength descs method pool with
  | error e =>
    rw [hc] at h
    simp at h
  | ok slices =>
    rw [hc] at h
    have h1 := (Prod.ext_iff.mp h).1
    have h2 := (Prod.ext_iff.mp h).2
    simp only [Except.ok.injEq] at h1
    exact ⟨slices, hc, h2.symm, h1.symm⟩

/-- C4: for every valid successful split of a (contiguously keyed) plain
dataset, each float descriptor `q` resolves to `⌈q * length⌉` and each int
descriptor to itself; the results' sizes are exactly the resolved counts, the
source shrinks by exactly the total removed count, and the result datasets
draw their records from pairwise-disjoint index slices of the source.  In
particular `split(0.3, 0.3)` on any dataset of length 10 yields sizes 3 and 3
and the source shrinks to 4. -/
theorem plain_split_sizes_and_disjoint (d : PlainData)
    (descs : List Descriptor) (method : String) (pool : List ℕ)
    (res : List PlainData) (src : PlainData)
    (hcanon : dataKeys d.data = List.range d.data.length)
    (hv : ∀ dsc ∈ descs, dsc.valid)
    (hpool : method = "random" →
      pool.Nodup ∧ pool.length = (intSumOf d.data.length descs).toNat ∧
        ∀ i ∈ pool, i < d.data.length)
    (h : d.split descs method pool = (.ok res, src)) :
    res.length = descs.length ∧
    res.map (fun r => r.data.length)
      = (nSamplesOf d.data.length descs).map Int.toNat ∧
    src.data.length = d.data.length - (intSumOf d.data.length descs).toNat ∧
    (∃ slices, splitCore d.data.length descs method pool = .ok slices ∧
      slices.Pairwise List.Disjoint ∧
      res.map (fun r => r.data)
        = slices.map (fun s => (s.map (lookupData d.data)).enum)) ∧
    (descs = [Descriptor.frac (3 / 10), Descriptor.frac (3 / 10)] →
      d.data.length = 10 →
      res.map (fun r => r.data.length) = [3, 3] ∧ src.data.length = 4) := by
  obtain ⟨slices, hc, hsrc, hres⟩ :=
    plain_split_ok_inversion d descs method pool res src h
  obtain ⟨hne, hm, hfrac, hint, hsl⟩ := splitCore_ok_inversion d.data.length
    descs method pool slices (valid_no_invalid descs hv) hc
  have hnn : 0 ≤ intSumOf d.data.length descs :=
    intSumOf_nonneg d.data.length descs hv
  have hlen : (selectIndices d.data.length (intSumOf d.data.length descs)
      method pool).length = (intSumOf d.data.length descs).toNat :=
    selectIndices_length _ _ method pool hm (fun hr => ((hpool hr).2.1))
  have hspec := selectIndices_spec d.data.length
    (intSumOf d.data.length descs) method pool hm hnn hint hpool
  have hposc : ∀ c ∈ nSamplesOf d.data.length descs, 0 ≤ c := by
    intro c hcm
    rw [nSamplesOf, List.mem_map] at hcm
    obtain ⟨dsc, hd, rfl⟩ := hcm
    exact resolvedCount_nonneg _ dsc (hv dsc hd)
  have hsum : (nSamplesOf d.data.length descs).sum
      = intSumOf d.data.length descs := rfl
  have hflat : slices.flatten
      = selectIndices d.data.length (intSumOf d.data.length descs)
          method pool := by
    rw [hsl]
    rw [takeSlices_flatten _ _ 0 le_rfl hposc (by rw [hsum, hlen]; omega)]
    rw [hsum, Int.toNat_zero, List.drop_zero, ← hlen]
    exact List.take_length _
  have hflatnd : slices.flatten.Nodup := by
    rw [hflat]
    exact hspec.1
  have hsnodup : ∀ s ∈ slices, s.Nodup :=
    (List.nodup_flatten.mp hflatnd).1
  have hdisj : slices.Pairwise List.Disjoint :=
    (List.nodup_flatten.mp hflatnd).2
  have hsubrange : ∀ x ∈ slices.flatten, x < d.data.length := by
    rw [hflat]
    exact hspec.2
  obtain ⟨loop2, loop1⟩ := plainDoSplitLoop_spec d.data slices hsnodup hdisj
  have hresdata : res.map (fun r => r.data)
      = slices.map (fun s => (s.map (lookupData d.data)).enum) := by
    rw [hres, plainDoSplit_eq]
    rw [List.map_map]
    rw [loop2]
    simp
  have hlens : res.map (fun r => r.data.length)
      = (nSamplesOf d.data.length descs).map Int.toNat := by
    have e1 : res.map (fun r => r.data.length)
        = (res.map (fun r => r.data)).map List.length := by
      rw [List.map_map]; rfl
    rw [e1, hresdata, List.map_map]
    have e2 : (List.length ∘ fun s : List ℕ => (s.map (lookupData d.data)).enum)
        = List.length := by
      funext s
      simp [List.enum_length]
    rw [e2]
    have := takeSlices_lengths
      (selectIndices d.data.length (intSumOf d.data.length descs) method pool)
      (nSamplesOf d.data.length descs) 0
    rw [← hsl] at this
    exact this
  have hsrclen : src.data.length
      = d.data.length - (intSumOf d.data.length descs).toNat := by
    rw [hsrc, plainDoSplit_eq]
    show (((plainDoSplitLoop d.data slices).1.map (·.2)).enum).length = _
    rw [List.enum_length, List.length_map, loop1]
    have hcong : d.data.filter (fun p => ∀ s ∈ slices, p.1 ∉ s)
        = d.data.filter (fun p => p.1 ∉ slices.flatten) := by
      apply List.filter_congr
      intro p hp
      simp only [decide_eq_decide, List.mem_flatten, not_exists]
      constructor
      · intro hall l hx
        exact hall l hx.1 hx.2
      · intro hno l hl hmem
        exact hno l ⟨hl, hmem⟩
    rw [hcong,
      length_filter_keys d.data slices.flatten hcanon hflatnd hsubrange]
    congr 1
    rw [hflat, hlen]
  refine ⟨?_, hlens, hsrclen, ⟨slices, hc, hdisj, hresdata⟩, ?_⟩
  · have := congrArg List.length hlens
    simpa [nSamplesOf] using this
  · rintro rfl h10
    have hceil : (⌈((10 : ℕ) : ℚ) * (3 / 10)⌉ : ℤ) = 3 := by
      rw [show (((10 : ℕ) : ℚ) * (3 / 10)) = 3 by norm_num]
      exact_mod_cast Int.ceil_intCast 3
    have hns : nSamplesOf d.data.length
        [Descriptor.frac (3 / 10), Descriptor.frac (3 / 10)] = [3, 3] := by
      rw [h10]
      show [⌈((10 : ℕ) : ℚ) * (3 / 10)⌉, ⌈((10 : ℕ) : ℚ) * (3 / 10)⌉]
        = ([3, 3] : List ℤ)
      rw [hceil]
    constructor
    · rw [hlens, hns]
      rfl
    · rw [hsrclen]
      have h6 : (intSumOf d.data.length
          [Descriptor.frac (3 / 10), Descriptor.frac (3 / 10)]).toNat = 6 := by
        unfold intSumOf
        rw [hns]
        rfl
      rw [h6, h10]

def plainEx : PlainData :=
  ⟨(List.range 10).map (fun i => (i, recEx (100 + (i : ℤ)) 0))⟩

/-- The two result datasets of `plainEx.split(3, 3, method="from_front")`. -/
def plainExRes : List PlainData :=
  [⟨[(0, recEx 100 0), (1, recEx 101 0), (2, recEx 102 0)]⟩,
   ⟨[(0, recEx 103 0), (1, recEx 104 0), (2, recEx 105 0)]⟩]

theorem plain_split_sizes_and_disjoint_witness :
    (plainExRes.length
        = ([Descriptor.count 3, Descriptor.count 3] : List Descriptor).length ∧
      plainExRes.map (fun r => r.data.length)
        = (nSamplesOf plainEx.data.length
            [Descriptor.count 3, Descriptor.count 3]).map Int.toNat ∧
      (plainEx.split [Descriptor.count 3, Descriptor.count 3]
          "from_front" []).2.data.length
        = plainEx.data.length
          - (intSumOf plainEx.data.length
              [Descriptor.count 3, Descriptor.count 3]).toNat ∧
      (∃ slices, splitCore plainEx.data.length
          [Descriptor.count 3, Descriptor.count 3] "from_front" []
            = .ok slices ∧
        slices.Pairwise List.Disjoint ∧
        plainExRes.map (fun r => r.data)
          = slices.map (fun s => (s.map (lookupData plainEx.data)).enum)) ∧
      (([Descriptor.count 3, Descriptor.count 3] : List Descriptor)
          = [Descriptor.frac (3 / 10), Descriptor.frac (3 / 10)] →
        plainEx.data.length = 10 →
        plainExRes.map (fun r => r.data.length) = [3, 3] ∧
        (plainEx.split [Descriptor.count 3, Descriptor.count 3]
          "from_front" []).2.data.length = 4)) :=
  plain_split_sizes_and_disjoint plainEx
    [Descriptor.count 3, Descriptor.count 3] "from_front" [] plainExRes
    (plainEx.split [Descriptor.count 3, Descriptor.count 3] "from_front" []).2
    (by decide) (by intro dsc hd; fin_cases hd <;> simp [Descriptor.valid])
    (fun h => absurd h (by decide)) (by decide)

/-! ## Claims C9 and C10: one-shot trials -/

theorem pickSeq_head_mem {α : Type} [DecidableEq α] (dflt : α) (l : List α)
    (seeds : List ℕ) (hne : l ≠ []) :
    l.getD (seeds.headD 0 % l.length) dflt ∈ l := by
  have hlt : seeds.headD 0 % l.length < l.length :=
    Nat.mod_lt _ (List.length_pos.mpr hne)
  rw [List.getD_eq_getElem _ _ hlt]
  exact List.getElem_mem _

theorem pickSeq_cons {α : Type} [DecidableEq α] (dflt : α) (l : List α)
    (k : ℕ) (seeds : List ℕ) :
    pickSeq dflt l (k + 1) seeds =
      l.getD (seeds.headD 0 % l.length) dflt ::
        pickSeq dflt (l.erase (l.getD (seeds.headD 0 % l.length) dflt)) k
          seeds.tail := rfl

theorem pickSeq_length {α : Type} [DecidableEq α] (dflt : α) (k : ℕ) :
    ∀ (l : List α) (seeds : List ℕ), k ≤ l.length →
      (pickSeq dflt l k seeds).length = k := by
  induction k with
  | zero => intro l seeds h; rfl
  | succ k ih =>
    intro l seeds h
    have hne : l ≠ [] := by
      intro h0
      rw [h0] at h
      simp at h
    have hx := pickSeq_head_mem dflt l seeds hne
    rw [pickSeq_cons, List.length_cons]
    congr 1
    apply ih
    rw [List.length_erase_of_mem hx]
    omega

theorem pickSeq_subset {α : Type} [DecidableEq α] (dflt : α) (k : ℕ) :
    ∀ (l : List α) (seeds : List ℕ), k ≤ l.length →
      ∀ x ∈ pickSeq dflt l k seeds, x ∈ l := by
  induction k with
  | zero => intro l seeds h x hx; cases hx
  | succ k ih =>
    intro l seeds h x hx
    have hne : l ≠ [] := by
      intro h0
      rw [h0] at h
      simp at h
    have hhd := pickSeq_head_mem dflt l seeds hne
    rw [pickSeq_cons] at hx
    rcases List.mem_cons.mp hx with rfl | hx2
    · exact hhd
    · have hlen : k ≤ (l.erase (l.getD (seeds.headD 0 % l.length) dflt)).length := by
        rw [List.length_erase_of_mem hhd]
        omega
      exact List.mem_of_mem_erase (ih _ seeds.tail hlen x hx2)

theorem pickSeq_nodup {α : Type} [DecidableEq α] (dflt : α) (k : ℕ) :
    ∀ (l : List α) (seeds : List ℕ), k ≤ l.length → l.Nodup →
      (pickSeq dflt l k seeds).Nodup := by
  induction k with
  | zero => intro l seeds h hnd; exact List.nodup_nil
  | succ k ih =>
    intro l seeds h hnd
    have hne : l ≠ [] := by
      intro h0
      rw [h0] at h
      simp at h
    have hhd := pickSeq_head_mem dflt l seeds hne
    have hlen : k ≤ (l.erase (l.getD (seeds.headD 0 % l.length) dflt)).length := by
      rw [List.length_erase_of_mem hhd]
      omega
    rw [pickSeq_cons, List.nodup_cons]
    refine ⟨?_, ih _ seeds.tail hlen (hnd.erase _)⟩
    intro hmem
    have := pickSeq_subset dflt k _ seeds.tail hlen _ hmem
    rw [hnd.mem_erase_iff] at this
    exact this.1 rfl

theorem chooseNoReplace_ok {α : Type} [DecidableEq α] (dflt : α) (l : List α)
    (k : ℕ) (seeds : List ℕ) (res : List α)
    (h : chooseNoReplace dflt l k seeds = .ok res) :
    k ≤ l.length ∧ res = pickSeq dflt l k seeds := by
  unfold chooseNoReplace at h
  by_cases hk : l.length < k
  · rw [if_pos hk] at h
    cases h
  · rw [if_neg hk] at h
    rw [Except.ok.injEq] at h
    exact ⟨by omega, h.symm⟩

/-- The per-class gathering loop of `one_shot_trial`: on success, one value
per class, each drawn from the corresponding class's index set. -/
theorem gatherOthers_spec (d : SiameseData) (cs : List Val) :
    ∀ (seeds : List ℕ) (rest : List Val),
      gatherOthers d cs seeds = .ok rest →
      rest.length = cs.length ∧
      ∀ j, j < cs.length →
        ∃ idx, idx ∈ classLookup d.classData (cs.getD j 0) ∧
          rest.getD j 0 = (lookupData d.data idx).get d.dataKeyLeft := by
  induction cs with
  | nil =>
    intro seeds rest h
    unfold gatherOthers at h
    rw [Except.ok.injEq] at h
    subst h
    exact ⟨rfl, fun j hj => absurd hj (by simp)⟩
  | cons c cs ih =>
    intro seeds rest h
    unfold gatherOthers at h
    split at h
    · cases h
    · rename_i idx hidx
      split at h
      · cases h
      · rename_i tail htail
        rw [Except.ok.injEq] at h
        subst h
        obtain ⟨hlen, hall⟩ := ih seeds.tail tail htail
        constructor
        · rw [List.length_cons, List.length_cons, hlen]
        · intro j hj
          cases j with
          | zero =>
            refine ⟨idx, chooseIdx_ok_mem hidx, rfl⟩
          | succ j =>
            have hj2 : j < cs.length := by
              rw [List.length_cons] at hj
              omega
            obtain ⟨idx2, hm, he⟩ := hall j hj2
            exact ⟨idx2, by simpa using hm, by simpa using he⟩

/-- C9: `one_shot_trial(n)` fails with a validation error when `n < 2` or `n`
exceeds the number of classes; on every successful run it returns two
sequences of length `n` built from `n` distinct sampled classes: position 0 of
the two sequences are the left values of two distinct instances of the first
sampled class, and every later position of the second sequence is the left
value of an instance of the corresponding later sampled class, which is a
different class from the first. -/
theorem one_shot_trial_spec (d : SiameseData) (n : ℕ) (t : TrialTape)
    (hwf : d.classData = dataToClass d.data d.labelKey) :
    ((n ≤ 1 ∨ d.classData.length < n) →
      ∃ e, d.oneShotTrial n t = .error e ∧
        (e = SamplingError.nTooSmall ∨ e = SamplingError.nTooLarge)) ∧
    (∀ l1 l2, d.oneShotTrial n t = .ok (l1, l2) →
      l1.length = n ∧ l2.length = n ∧
      ∃ classes : List Val, classes.Nodup ∧ classes.length = n ∧
        (∀ c ∈ classes, c ∈ classKeys d.classData) ∧
        ∃ i0 i1 : ℕ, ¬ i0 = i1 ∧
          i0 ∈ classLookup d.classData (classes.headD 0) ∧
          i1 ∈ classLookup d.classData (classes.headD 0) ∧
          l1 = List.replicate n ((lookupData d.data i0).get d.dataKeyLeft) ∧
          l2.getD 0 0 = (lookupData d.data i1).get d.dataKeyLeft ∧
          (∀ j, 1 ≤ j → j < n →
            ¬ classes.getD j 0 = classes.headD 0 ∧
            ∃ idx, idx ∈ classLookup d.classData (classes.getD j 0) ∧
              l2.getD j 0 = (lookupData d.data idx).get d.dataKeyLeft)) := by
  constructor
  · intro hbad
    by_cases h1 : 1 < n
    · have h2 : d.classData.length < n := by
        rcases hbad with h | h
        · omega
        · exact h
      refine ⟨SamplingError.nTooLarge, ?_, Or.inr rfl⟩
      unfold SiameseData.oneShotTrial
      rw [if_neg (not_not_intro h1), if_pos (by omega : ¬ n ≤ d.classData.length)]
    · refine ⟨SamplingError.nTooSmall, ?_, Or.inl rfl⟩
      unfold SiameseData.oneShotTrial
      rw [if_pos h1]
  · intro l1 l2 h
    unfold SiameseData.oneShotTrial at h
    by_cases h1 : ¬ 1 < n
    · rw [if_pos h1] at h
      cases h
    · rw [if_neg h1] at h
      by_cases h2 : ¬ n ≤ d.classData.length
      · rw [if_pos h2] at h
        cases h
      · rw [if_neg h2] at h
        split at h
        · cases h
        · rename_i classes hclasses
          split at h
          · cases h
          · rename_i baseIdxs hbase
            split at h
            · cases h
            · rename_i tail htail
              rw [Except.ok.injEq, Prod.mk.injEq] at h
              obtain ⟨hl1, hl2⟩ := h
              have hkeysnd : (classKeys d.classData).Nodup := by
                rw [hwf]
                exact classKeys_nodup_dataToClass d.data d.labelKey
              have hkeyslen : (classKeys d.classData).length
                  = d.classData.length := by
                unfold classKeys
                rw [List.length_map]
              obtain ⟨hle, hcl⟩ := chooseNoReplace_ok 0 _ n _ _ hclasses
              obtain ⟨hble, hbl⟩ := chooseNoReplace_ok 0 _ 2 _ _ hbase
              have hclen : classes.length = n := by
                rw [hcl]
                exact pickSeq_length 0 n _ _ hle
              have hcnd : classes.Nodup := by
                rw [hcl]
                exact pickSeq_nodup 0 n _ _ hle hkeysnd
              have hcsub : ∀ c ∈ classes, c ∈ classKeys d.classData := by
                rw [hcl]
                exact pickSeq_subset 0 n _ _ hle
              have hbprops : baseIdxs.length = 2 ∧ baseIdxs.Nodup ∧
                  ∀ x ∈ baseIdxs,
                    x ∈ classLookup d.classData (classes.headD 0) := by
                rw [hbl]
                refine ⟨pickSeq_length 0 2 _ _ hble,
                  pickSeq_nodup 0 2 _ _ hble (nodup_finsetAsc _), ?_⟩
                intro x hx
                have := pickSeq_subset 0 2 _ _ hble x hx
                rwa [mem_finsetAsc] at this
              obtain ⟨x0, x1, hxx⟩ := List.length_eq_two.mp hbprops.1
              have hx01 : ¬ x0 = x1 := by
                have := hbprops.2.1
                rw [hxx, List.nodup_cons] at this
                intro hEq
                exact this.1 (hEq ▸ List.mem_cons_self _ _)
              obtain ⟨htlen, htall⟩ := gatherOthers_spec d classes.tail _ _ htail
              refine ⟨?_, ?_, classes, hcnd, hclen, hcsub, x0, x1, hx01,
                ?_, ?_, ?_, ?_, ?_⟩
              · rw [← hl1, List.length_replicate]
              · rw [← hl2, List.length_cons, htlen, List.length_tail, hclen]
                omega
              · apply hbprops.2.2
                rw [hxx]
                exact List.mem_cons_self _ _
              · apply hbprops.2.2
                rw [hxx]
                exact List.mem_cons_of_mem _ (List.mem_cons_self _ _)
              · rw [← hl1, hxx]
                rfl
              · rw [← hl2, hxx]
                rfl
              · have hn2 : 1 < n := not_not.mp h1
                cases classes with
                | nil =>
                  exfalso
                  rw [List.length_nil] at hclen
                  omega
                | cons c0 crest =>
                  intro j hj1 hjn
                  have hclen2 : crest.length = n - 1 := by
                    rw [List.length_cons] at hclen
                    omega
                  have hjc : j - 1 < crest.length := by omega
                  have hnd2 := List.nodup_cons.mp hcnd
                  constructor
                  · intro hEq
                    have hmem : (c0 :: crest).getD j 0 ∈ crest := by
                      cases j with
                      | zero => omega
                      | succ jj =>
                        show crest.getD jj 0 ∈ crest
                        have hjj : jj < crest.length := by omega
                        rw [List.getD_eq_getElem _ _ hjj]
                        exact List.getElem_mem _
                    rw [hEq] at hmem
                    exact hnd2.1 hmem
                  · have hjt : j - 1 < (c0 :: crest).tail.length := by
                      simpa using hjc
                    obtain ⟨idx, hm, he⟩ := htall (j - 1) hjt
                    cases j with
                    | zero => omega
                    | succ jj =>
                      refine ⟨idx, ?_, ?_⟩
                      · simpa using hm
                      · rw [← hl2]
                        show tail.getD jj 0
                          = (lookupData d.data idx).get d.dataKeyLeft
                        simpa using he

theorem one_shot_trial_spec_witness :
    (((2 : ℕ) ≤ 1 ∨ dEx1.classData.length < 2 →
      ∃ e, dEx1.oneShotTrial 2 ⟨[1], [0], [0]⟩ = .error e ∧
        (e = SamplingError.nTooSmall ∨ e = SamplingError.nTooLarge)) ∧
    (∀ l1 l2, dEx1.oneShotTrial 2 ⟨[1], [0], [0]⟩ = .ok (l1, l2) →
      l1.length = 2 ∧ l2.length = 2 ∧
      ∃ classes : List Val, classes.Nodup ∧ classes.length = 2 ∧
        (∀ c ∈ classes, c ∈ classKeys dEx1.classData) ∧
        ∃ i0 i1 : ℕ, ¬ i0 = i1 ∧
          i0 ∈ classLookup dEx1.classData (classes.headD 0) ∧
          i1 ∈ classLookup dEx1.classData (classes.headD 0) ∧
          l1 = List.replicate 2 ((lookupData dEx1.data i0).get dEx1.dataKeyLeft) ∧
          l2.getD 0 0 = (lookupData dEx1.data i1).get dEx1.dataKeyLeft ∧
          (∀ j, 1 ≤ j → j < 2 →
            ¬ classes.getD j 0 = classes.headD 0 ∧
            ∃ idx, idx ∈ classLookup dEx1.classData (classes.getD j 0) ∧
              l2.getD j 0 = (lookupData dEx1.data idx).get dEx1.dataKeyLeft))) :=
  one_shot_trial_spec dEx1 2 ⟨[1], [0], [0]⟩ (by rfl)

/-- C10: even with `2 ≤ n ≤ number of classes`, `one_shot_trial` fails when
the first of the `n` sampled classes has fewer than two members, because
drawing two distinct reference instances without replacement from it is
impossible (`np.random.choice(..., size=2, replace=False)` raises); this
precondition is nowhere in the stated interface. -/
theorem one_shot_singleton_first_class_fails (d : SiameseData) (n : ℕ)
    (t : TrialTape) (h2 : 2 ≤ n) (hn : n ≤ d.classData.length)
    (hcard : (classLookup d.classData
        ((pickSeq 0 (classKeys d.classData) n t.classSeeds).headD 0)).card
      < 2) :
    d.oneShotTrial n t = .error .sampleTooLarge := by
  have ha : ¬ ¬ 1 < n := not_not_intro (by omega)
  have hb : ¬ ¬ n ≤ d.classData.length := not_not_intro hn
  have hcl : chooseNoReplace 0 (classKeys d.classData) n t.classSeeds
      = .ok (pickSeq 0 (classKeys d.classData) n t.classSeeds) := by
    unfold chooseNoReplace
    rw [if_neg (by unfold classKeys; rw [List.length_map]; omega)]
  have hbase : chooseNoReplace 0
      (finsetAsc (classLookup d.classData
        ((pickSeq 0 (classKeys d.classData) n t.classSeeds).headD 0))) 2
      t.baseSeeds = .error .sampleTooLarge := by
    unfold chooseNoReplace
    rw [if_pos (by rw [length_finsetAsc]; exact hcard)]
  unfold SiameseData.oneShotTrial
  rw [if_neg ha, if_neg hb, hcl]
  simp only [hbase]

theorem one_shot_singleton_first_class_fails_witness :
    dEx1.oneShotTrial 2 ⟨[0], [0], [0]⟩ = .error .sampleTooLarge :=
  one_shot_singleton_first_class_fails dEx1 2 ⟨[0], [0], [0]⟩ (by decide)
    (by decide) (by decide)

end FastEstimator
